import Mathlib

/-!
Shallow embedding of the CSP solver in `csp/assignment5.py` (class `CSP`:
`add_variable`, `add_constraint_one_way`, `get_all_arcs`,
`get_all_neighboring_arcs`, `revise`, `inference` (AC-3),
`select_unassigned_variable`, `backtrack`, `backtracking_search`), together
with proofs about it.

Modelling conventions, mirroring the Python source:
* A Python dict is an insertion-ordered association list `List (key × value)`.
  Writing an existing key replaces its (first) binding in place; registering a
  new key appends it.  `assignment` is `List (σ × List α)`.
* Variable names (`"row-column"` strings in the source) are an arbitrary type
  `σ` with decidable equality; domain values (single-character strings in the
  Sudoku driver) are an arbitrary type `α` with decidable equality.
* `new_assignment[var] = value` in `backtrack` stores the raw value.  For
  the driver's one-character string values this object behaves like the
  one-element list `[value]` under `len`, iteration and pairing with
  `itertools.product` — but not under `list.remove`: when the collapsed
  value itself loses support, `revise` reaches `cp.remove(x)` on a `str`
  and raises `AttributeError`, aborting the whole search.  The file
  therefore carries two embeddings of the branch state.  `CSP.backtrack`
  and `tryVals` use `updateA a var [v]`, which is exact on every path on
  which no collapsed value loses support during a branch propagation (in
  particular on the branching-free paths).  `PyDom` with
  `CSP.revisePy`/`CSP.inferP`/`CSP.backtrackP`/`tryValsP` keeps the raw
  value and models the `AttributeError` path (`none`) faithfully; the
  branch-isolation claim is stated over this model.
* `self.inference(...)` mutates `assignment` in place and returns a `bool`;
  it is embedded as a function returning the pair
  (mutated assignment, returned bool).
* The AC-3 worklist loop of `inference` is embedded with an explicit step
  budget (`inferenceN`, returning `none` when the budget runs out).
  `CSP.inference` runs it with the budget `acFuel`, which is proved
  sufficient (`inference_runs`), so `CSP.inference` computes exactly the
  result of the Python loop.  Likewise the recursion of `backtrack` is run
  with depth budget `totalSize a + 1`, which is proved sufficient for
  dictionaries with distinct keys (`backtrack_fuel_sufficient`).
* Reading `assignment[xi]`, `self.constraints[xi]` or
  `self.constraints[xi][xj]` for an absent key raises `KeyError` in Python;
  the embedding totalises these reads with the default `[]`, and makes the
  corresponding write a no-op.  No behaviour of the source on non-crashing
  inputs is affected.
* `del new_assignment[var]` at the end of a failed loop iteration acts on a
  copy that is discarded immediately afterwards; it has no observable effect
  and is not embedded.
-/

set_option autoImplicit false

variable {σ α β : Type}

/-- Python dict read guarded by `in`: the first binding of key `k`, if any. -/
def dictGet? [DecidableEq σ] : List (σ × β) → σ → Option β
  | [], _ => none
  | p :: rest, k => if p.1 = k then some p.2 else dictGet? rest k

/-- Python dict read with a default for an absent key. -/
def dictGetD [DecidableEq σ] (d : List (σ × β)) (k : σ) (dflt : β) : β :=
  (dictGet? d k).getD dflt

/-- Python dict write `d[k] = v`: replace the first binding of `k` in place,
or append a fresh binding when `k` is absent. -/
def dictSet [DecidableEq σ] : List (σ × β) → σ → β → List (σ × β)
  | [], k, v => [(k, v)]
  | p :: rest, k, v => if p.1 = k then (k, v) :: rest else p :: dictSet rest k v

/-- The `assignment` dictionaries of the source: every variable mapped to its
current list of legal values. -/
abbrev Assignment (σ α : Type) : Type := List (σ × List α)

/-- `assignment[k]`, totalised with `[]` for an absent key. -/
def lookupD [DecidableEq σ] (a : Assignment σ α) (k : σ) : List α :=
  dictGetD a k []

/-- `assignment[k] = v` for a key expected to be present (a no-op when the
key is absent, where Python would already have raised `KeyError` on the
preceding read). -/
def updateA [DecidableEq σ] : Assignment σ α → σ → List α → Assignment σ α
  | [], _, _ => []
  | p :: rest, k, v => if p.1 = k then (k, v) :: rest else p :: updateA rest k v

/-- The `CSP` class state built by `__init__`, `add_variable` and
`add_constraint_one_way`: the variable list (`self.variables`; `vars` here,
since `variables` is reserved in Lean), the registered domains and the
nested constraint dictionary `constraints[i][j]` of allowed value pairs.
The two backtrack counters carry no information used by any method and are
omitted. -/
structure CSP (σ α : Type) where
  vars : List σ
  domains : Assignment σ α
  constraints : List (σ × List (σ × List (α × α)))

/-- `CSP()`. -/
def CSP.new (σ α : Type) : CSP σ α := ⟨[], [], []⟩

/-- `get_all_possible_pairs(a, b)`: the cross product, first components drawn
from `a`, in `itertools.product` order. -/
def pairsProd : List α → List β → List (α × β)
  | [], _ => []
  | x :: xs, b => b.map (fun y => (x, y)) ++ pairsProd xs b

/-- `add_variable(name, domain)`: append the name, store the domain and reset
`constraints[name]` to an empty dict.  The source performs no duplicate-name
check. -/
def CSP.add_variable [DecidableEq σ] (c : CSP σ α) (name : σ) (domain : List α) :
    CSP σ α :=
  { vars := c.vars ++ [name]
    domains := dictSet c.domains name domain
    constraints := dictSet c.constraints name [] }

/-- The stored allowed-pair table `constraints[i][j]` ( `[]` when absent). -/
def tblOf [DecidableEq σ] (c : CSP σ α) (i j : σ) : List (α × α) :=
  dictGetD (dictGetD c.constraints i []) j []

/-- The keys of `constraints[i]`: the neighbours used for requeueing. -/
def nbrsOf [DecidableEq σ] (c : CSP σ α) (i : σ) : List σ :=
  (dictGetD c.constraints i []).map Prod.fst

/-- `add_constraint_one_way(i, j, filter_function)`: seed `constraints[i][j]`
with the cross product of the registration-time domains when absent, then
filter it through the predicate.  Only the `i -> j` direction is added. -/
def CSP.add_constraint_one_way [DecidableEq σ] (c : CSP σ α) (i j : σ)
    (f : α → α → Bool) : CSP σ α :=
  let row := dictGetD c.constraints i []
  let base := (dictGet? row j).getD
    (pairsProd (dictGetD c.domains i []) (dictGetD c.domains j []))
  let t := base.filter (fun p => f p.1 p.2)
  { c with constraints := dictSet c.constraints i (dictSet row j t) }

/-- `add_all_different_constraint(variables)`: a pairwise not-equal constraint
for every ordered pair of distinct variables, in `itertools.product` order. -/
def CSP.add_all_different_constraint [DecidableEq σ] [DecidableEq α]
    (c : CSP σ α) (vars : List σ) : CSP σ α :=
  (pairsProd vars vars).foldl
    (fun acc p =>
      if p.1 ≠ p.2 then acc.add_constraint_one_way p.1 p.2 (fun x y => decide (x ≠ y))
      else acc) c

/-- One row of `get_all_arcs`: the pairs `(i, j)` for `j` a key of
`constraints[i]`, rows in dict order. -/
def arcRows : List (σ × List (σ × List (α × α))) → List (σ × σ)
  | [] => []
  | (i, row) :: rest => row.map (fun p => (i, p.1)) ++ arcRows rest

/-- `get_all_arcs()`. -/
def CSP.get_all_arcs (c : CSP σ α) : List (σ × σ) :=
  arcRows c.constraints

/-- `get_all_neighboring_arcs(var)`: the arcs `(i, var)` for `i` a key of
`constraints[var]`. -/
def CSP.get_all_neighboring_arcs [DecidableEq σ] (c : CSP σ α) (var : σ) :
    List (σ × σ) :=
  (dictGetD c.constraints var []).map (fun p => (p.1, var))

/-- Whether some value `w` of `dj` makes `(x, w)` a member of the table `t`:
the support test performed by one iteration of the loop in `revise`. -/
def hasSupport [DecidableEq α] (t : List (α × α)) (dj : List α) (x : α) : Bool :=
  dj.any (fun w => decide ((x, w) ∈ t))

/-- One iteration of the loop in `revise`: build
`arcs = product([x], assignment[xj])`, keep the stored pairs that occur in it,
and when none remains delete `x` from the working copy (`list.remove` deletes
the first occurrence) and record that a revision happened. -/
def reviseStep [DecidableEq α] (t : List (α × α)) (dj : List α)
    (acc : List α × Bool) (x : α) : List α × Bool :=
  if (t.filter (fun pr => decide (pr ∈ pairsProd [x] dj))).length = 0
  then (acc.1.erase x, true) else acc

/-- `revise(assignment, xi, xj)`: run the per-value loop over the values of
`assignment[xi]` starting from the working copy `cp = deepcopy(assignment[xi])`
and `revised = False`, then write the working copy back.  Returns the pair
(assignment after the write, returned flag). -/
def CSP.revise [DecidableEq σ] [DecidableEq α] (c : CSP σ α)
    (a : Assignment σ α) (xi xj : σ) : Assignment σ α × Bool :=
  let res := (lookupD a xi).foldl (reviseStep (tblOf c xi xj) (lookupD a xj))
    (lookupD a xi, false)
  (updateA a xi res.1, res.2)

/-- The arcs appended to the queue after a shrinking revision of the arc
`(xi, xj)`: every `(xk, xi)` from `get_all_neighboring_arcs(xi)` with
`xk ≠ xi` and `xk ≠ xj`. -/
def CSP.requeue [DecidableEq σ] (c : CSP σ α) (xi xj : σ) : List (σ × σ) :=
  (c.get_all_neighboring_arcs xi).filterMap
    (fun p => if p.1 ≠ xi ∧ p.1 ≠ xj then some (p.1, xi) else none)

/-- The AC-3 worklist loop of `inference`, with an explicit step budget:
pop the front arc, revise, fail on an emptied domain, requeue the neighbour
arcs `(xk, xi)` with `xk ≠ xi` and `xk ≠ xj` after a shrinking revision.
`none` means the budget ran out (never the case for the budget `acFuel`,
see `inference_runs`). -/
def CSP.inferenceN [DecidableEq σ] [DecidableEq α] (c : CSP σ α) :
    Nat → Assignment σ α → List (σ × σ) → Option (Assignment σ α × Bool)
  | 0, _, _ => none
  | _ + 1, a, [] => some (a, true)
  | n + 1, a, (xi, xj) :: q =>
    let r := c.revise a xi xj
    if r.2 then
      if (lookupD r.1 xi).length = 0 then some (r.1, false)
      else c.inferenceN n r.1 (q ++ c.requeue xi xj)
    else c.inferenceN n r.1 q

/-- Total number of values over all domains of an assignment. -/
def totalSize (a : Assignment σ α) : Nat :=
  (a.map (fun p => p.2.length)).sum

/-- Sum of the neighbour counts over the keys of an assignment; an upper
bound for the number of arcs requeued by one step of the AC-3 loop. -/
def nbrsWeight [DecidableEq σ] (c : CSP σ α) (a : Assignment σ α) : Nat :=
  (a.map (fun p => (nbrsOf c p.1).length)).sum

/-- Termination measure of the AC-3 loop: each step either consumes a queue
entry, or strictly shrinks a domain while requeueing at most `nbrsWeight`
arcs, so the measure strictly decreases. -/
def acMeasure [DecidableEq σ] (c : CSP σ α) (a : Assignment σ α)
    (q : List (σ × σ)) : Nat :=
  q.length + totalSize a * (1 + nbrsWeight c a)

/-- Step budget sufficient for the AC-3 loop. -/
def acFuel [DecidableEq σ] (c : CSP σ α) (a : Assignment σ α)
    (q : List (σ × σ)) : Nat :=
  acMeasure c a q + 1

/-- `inference(assignment, queue)`: the AC-3 loop run to completion.  The
budget `acFuel` is proved sufficient (`inferenceN_acFuel_eq`), so the
default branch of `getD` is never taken. -/
def CSP.inference [DecidableEq σ] [DecidableEq α] (c : CSP σ α)
    (a : Assignment σ α) (q : List (σ × σ)) : Assignment σ α × Bool :=
  (c.inferenceN (acFuel c a q) a q).getD (a, false)

/-- The completeness test opening `backtrack`: no domain in the assignment
has more than one value (a length-zero domain also passes). -/
def isComplete (a : Assignment σ α) : Bool :=
  ! a.any (fun p => decide (1 < p.2.length))

/-- Comparison against the running minimum in
`select_unassigned_variable` (`none` plays the role of `float("inf")`). -/
def minOk (len : Nat) (m : Option Nat) : Bool :=
  match m with
  | none => true
  | some k => decide (len < k)

/-- `select_unassigned_variable(assignment)`: first-encountered key whose
domain length is strictly between 1 and the running minimum; `none` plays the
role of the `-1` sentinel (never returned on an incomplete assignment). -/
def select_unassigned_variable (a : Assignment σ α) : Option σ :=
  (a.foldl
    (fun acc p =>
      if decide (1 < p.2.length) && minOk p.2.length acc.2
      then (some p.1, some p.2.length) else acc)
    ((none : Option σ), (none : Option Nat))).1

/-- The value loop of `backtrack`, abstracted over the recursive call `bt`:
for each candidate value in order, collapse the variable in a fresh copy of
the parent assignment `a`, run `inference` over all arcs, recurse on success,
and propagate the first non-`False` result.  `some none` is Python's
`False`, `some (some r)` a found assignment, `none` an exhausted depth
budget inside `bt`.  The collapsed state is embedded as `[v]`; `tryValsP`
is the raw-value embedding that also carries the `AttributeError` path
(see the module comment). -/
def tryVals [DecidableEq σ] [DecidableEq α] (c : CSP σ α)
    (bt : Assignment σ α → Option (Option (Assignment σ α)))
    (a : Assignment σ α) (var : σ) (vals : List α) :
    Option (Option (Assignment σ α)) :=
  vals.foldl
    (fun acc v =>
      match acc with
      | some none =>
        let r := c.inference (updateA a var [v]) c.get_all_arcs
        if r.2 then bt r.1 else some none
      | other => other)
    (some none)

/-- `backtrack(assignment)` with an explicit recursion-depth budget: return
the assignment when complete, otherwise pick a variable and run the value
loop.  The budget decreases once per recursive call; `totalSize a + 1` is
proved sufficient for key-distinct assignments
(`backtrack_fuel_sufficient`).  The collapsed state is embedded as `[v]`;
`CSP.backtrackP` is the raw-value embedding that also carries the
`AttributeError` path (see the module comment). -/
def CSP.backtrack [DecidableEq σ] [DecidableEq α] (c : CSP σ α) :
    Nat → Assignment σ α → Option (Option (Assignment σ α))
  | 0, _ => none
  | n + 1, a =>
    if isComplete a then some (some a)
    else
      match select_unassigned_variable a with
      | none => some none
      | some var =>
        (lookupD a var).foldl
          (fun acc v =>
            match acc with
            | some none =>
              let r := c.inference (updateA a var [v]) c.get_all_arcs
              if r.2 then c.backtrack n r.1 else some none
            | other => other)
          (some none)

/-- `backtracking_search()`: deep-copy the registered domains, run the
pre-search AC-3 pass over all arcs with its boolean result discarded, and
hand the (possibly reduced) assignment to `backtrack`.  `none` is Python's
`False`. -/
def CSP.backtracking_search [DecidableEq σ] [DecidableEq α] (c : CSP σ α) :
    Option (Assignment σ α) :=
  let assignment := c.domains
  let a2 := (c.inference assignment c.get_all_arcs).1
  (c.backtrack (totalSize a2 + 1) a2).getD none

/-- Calling `backtrack` on an assignment with the depth budget used by
`backtracking_search`; named so that the unconditional hand-over of the
post-propagation assignment can be stated. -/
def btApply [DecidableEq σ] [DecidableEq α] (c : CSP σ α)
    (a : Assignment σ α) : Option (Assignment σ α) :=
  (c.backtrack (totalSize a + 1) a).getD none

/-- The not-equal predicate handed to `add_constraint_one_way` by the
problem builders. -/
def neq [DecidableEq α] (x y : α) : Bool :=
  decide (x ≠ y)

/-- Two variables carrying the same single fixed value, constrained to
differ in both directions: the "two identical fixed values in the same row"
scenario reduced to its two conflicting cells. -/
def cPair : CSP (Fin 2) (Fin 1) :=
  ((((CSP.new (Fin 2) (Fin 1)).add_variable 0 [0]).add_variable 1 [0]
    ).add_constraint_one_way 0 1 neq).add_constraint_one_way 1 0 neq

/-- Two variables with the two-value domain `[0, 1]`, constrained to differ
in both directions: a solvable symmetric model. -/
def cSym : CSP (Fin 2) (Fin 2) :=
  ((((CSP.new (Fin 2) (Fin 2)).add_variable 0 [0, 1]).add_variable 1 [0, 1]
    ).add_constraint_one_way 0 1 neq).add_constraint_one_way 1 0 neq

/-- A model whose two directional tables are deliberately unrelated (the
construction API permits this): `constraints[0][1] = [(0, 2)]` while
`constraints[1][0] = [(2, 1), (3, 0)]`. -/
def cAsym : CSP (Fin 2) (Fin 4) :=
  ((((CSP.new (Fin 2) (Fin 4)).add_variable 0 [0, 1]).add_variable 1 [2, 3]
    ).add_constraint_one_way 0 1 (fun x y => decide (x = 0 ∧ y = 2))
    ).add_constraint_one_way 1 0
      (fun x y => decide ((x = 2 ∧ y = 1) ∨ (x = 3 ∧ y = 0)))

/-- Variable `0` undecided between two values, variable `1` fixed to `1`,
not-equal in both directions: collapsing `0` to the value `1` makes the
propagation of that branch fail. -/
def cBranch : CSP (Fin 2) (Fin 2) :=
  ((((CSP.new (Fin 2) (Fin 2)).add_variable 0 [0, 1]).add_variable 1 [1]
    ).add_constraint_one_way 0 1 neq).add_constraint_one_way 1 0 neq

/-- A single variable registered with an empty domain and no constraint. -/
def cEmptyVar : CSP (Fin 1) (Fin 1) :=
  (CSP.new (Fin 1) (Fin 1)).add_variable 0 []

/-- Variable `0` registered with an empty domain and variable `1` with `[0]`,
before any constraint is added. -/
def cEmptyPre : CSP (Fin 2) (Fin 1) :=
  ((CSP.new (Fin 2) (Fin 1)).add_variable 0 []).add_variable 1 [0]

/-- `cEmptyPre` with the constraint `1 -> 0` built over it (its table is
necessarily empty, since the domain of `0` is empty). -/
def cEmptyPair : CSP (Fin 2) (Fin 1) :=
  cEmptyPre.add_constraint_one_way 1 0 (fun _ _ => true)

/-- A two-variable model with a not-equal constraint `0 -> 1`, used as the
state before a duplicate `add_variable` call. -/
def cDup : CSP (Fin 2) (Fin 3) :=
  (((CSP.new (Fin 2) (Fin 3)).add_variable 0 [0, 1]).add_variable 1 [0, 1]
    ).add_constraint_one_way 0 1 neq

/-- A single variable with a one-value domain and no constraint. -/
def cSingle : CSP (Fin 1) (Fin 1) :=
  (CSP.new (Fin 1) (Fin 1)).add_variable 0 [0]

/-- A domain object as a branch assignment of the source really holds it:
either the registered list of candidate values, or the raw value stored by
`new_assignment[var] = value` in `backtrack`.  The driver's values are
one-character strings, for which `len` is 1 and iteration yields the value
itself. -/
inductive PyDom (α : Type) where
  | list : List α → PyDom α
  | raw : α → PyDom α
  deriving DecidableEq

/-- Iterating a Python domain object (`for x in d`, or as an argument of
`itertools.product`): the elements of a list, or the single character of a
raw one-character string value. -/
def PyDom.toList : PyDom α → List α
  | .list l => l
  | .raw v => [v]

/-- `len(d)` of a Python domain object: the length of a list, or 1 for a
raw one-character string value. -/
def PyDom.len : PyDom α → Nat
  | .list l => l.length
  | .raw _ => 1

/-- `cp.remove(x)`: deletes the first occurrence from a list copy; a raw
(string) value has no such attribute and the call raises `AttributeError`,
modelled as `none`. -/
def PyDom.remove [DecidableEq α] : PyDom α → α → Option (PyDom α)
  | .list l, x => some (.list (l.erase x))
  | .raw _, _ => none

/-- A branch assignment as the source really holds it: every variable
mapped to a list of values, or to a raw collapsed value. -/
abbrev PyAssignment (σ α : Type) : Type := List (σ × PyDom α)

/-- `assignment[k]` on a branch assignment, totalised like `lookupD`. -/
def lookupP [DecidableEq σ] (a : PyAssignment σ α) (k : σ) : PyDom α :=
  dictGetD a k (PyDom.list [])

/-- `assignment[k] = v` on a branch assignment, like `updateA`. -/
def updateP [DecidableEq σ] : PyAssignment σ α → σ → PyDom α → PyAssignment σ α
  | [], _, _ => []
  | p :: rest, k, v => if p.1 = k then (k, v) :: rest else p :: updateP rest k v

/-- The deep copy of a list-domain assignment into a branch assignment. -/
def toPy (a : Assignment σ α) : PyAssignment σ α :=
  a.map (fun p => (p.1, PyDom.list p.2))

/-- One iteration of the loop in `revise` on a branch assignment: as
`reviseStep`, except that deleting an unsupported value from a raw
collapsed domain raises `AttributeError` (`none`), discarding the
remaining iterations. -/
def reviseStepP [DecidableEq α] (t : List (α × α)) (dj : List α)
    (acc : Option (PyDom α × Bool)) (x : α) : Option (PyDom α × Bool) :=
  match acc with
  | none => none
  | some cp =>
    if (t.filter (fun pr => decide (pr ∈ pairsProd [x] dj))).length = 0
    then (cp.1.remove x).map (fun cp2 => (cp2, true))
    else some cp

/-- `revise` on a branch assignment, crash path included: `none` means a
`cp.remove(x)` call raised `AttributeError` on a raw collapsed value, so
the write-back never happens. -/
def CSP.revisePy [DecidableEq σ] [DecidableEq α] (c : CSP σ α)
    (a : PyAssignment σ α) (xi xj : σ) : Option (PyAssignment σ α × Bool) :=
  ((lookupP a xi).toList.foldl
      (reviseStepP (tblOf c xi xj) (lookupP a xj).toList)
      (some (lookupP a xi, false))).map
    (fun res => (updateP a xi res.1, res.2))

/-- Total number of values over a branch assignment. -/
def totalSizeP (a : PyAssignment σ α) : Nat :=
  (a.map (fun p => p.2.len)).sum

/-- As `nbrsWeight`, over a branch assignment. -/
def nbrsWeightP [DecidableEq σ] (c : CSP σ α) (a : PyAssignment σ α) : Nat :=
  (a.map (fun p => (nbrsOf c p.1).length)).sum

/-- As `acFuel`, over a branch assignment. -/
def acFuelP [DecidableEq σ] (c : CSP σ α) (a : PyAssignment σ α)
    (q : List (σ × σ)) : Nat :=
  q.length + totalSizeP a * (1 + nbrsWeightP c a) + 1

/-- The AC-3 worklist loop on a branch assignment with an explicit step
budget.  The outer `none` means the budget ran out; `some none` means a
`revise` call raised `AttributeError`. -/
def CSP.inferencePN [DecidableEq σ] [DecidableEq α] (c : CSP σ α) :
    Nat → PyAssignment σ α → List (σ × σ) →
      Option (Option (PyAssignment σ α × Bool))
  | 0, _, _ => none
  | _ + 1, a, [] => some (some (a, true))
  | n + 1, a, (xi, xj) :: q =>
    match c.revisePy a xi xj with
    | none => some none
    | some r =>
      if r.2 then
        if (lookupP r.1 xi).len = 0 then some (some (r.1, false))
        else c.inferencePN n r.1 (q ++ c.requeue xi xj)
      else c.inferencePN n r.1 q

/-- `inference` on a branch assignment: the loop run with the `acFuelP`
budget.  `none` is the `AttributeError` escaping `inference` uncaught (or
the budget running out, which the measure argument of `inferenceN_isSome`
rules out on the crash-free paths). -/
def CSP.inferP [DecidableEq σ] [DecidableEq α] (c : CSP σ α)
    (a : PyAssignment σ α) (q : List (σ × σ)) :
    Option (PyAssignment σ α × Bool) :=
  (c.inferencePN (acFuelP c a q) a q).getD none

/-- The completeness test of `backtrack` on a branch assignment
(`len(value) > 1`; a raw collapsed one-character value has length 1). -/
def isCompleteP (a : PyAssignment σ α) : Bool :=
  ! a.any (fun p => decide (1 < p.2.len))

/-- `select_unassigned_variable` on a branch assignment. -/
def selectP (a : PyAssignment σ α) : Option σ :=
  (a.foldl
    (fun acc p =>
      if decide (1 < p.2.len) && minOk p.2.len acc.2
      then (some p.1, some p.2.len) else acc)
    ((none : Option σ), (none : Option Nat))).1

/-- `backtrack` on a branch assignment with a recursion-depth budget, crash
path included: `none` is an abnormal end (an `AttributeError` escaping a
propagation, or an exhausted budget), aborting the whole search; `some
none` is Python's `False`. -/
def CSP.backtrackP [DecidableEq σ] [DecidableEq α] (c : CSP σ α) :
    Nat → PyAssignment σ α → Option (Option (PyAssignment σ α))
  | 0, _ => none
  | n + 1, a =>
    if isCompleteP a then some (some a)
    else
      match selectP a with
      | none => some none
      | some var =>
        (lookupP a var).toList.foldl
          (fun acc v =>
            match acc with
            | some none =>
              match c.inferP (updateP a var (PyDom.raw v)) c.get_all_arcs with
              | none => none
              | some r => if r.2 then c.backtrackP n r.1 else some none
            | other => other)
          (some none)

/-- The value loop of `backtrack` on a branch assignment, abstracted over
the recursive call `bt`, crash path included: each iteration collapses the
variable to the raw value in a fresh copy of the parent assignment `a`; an
`AttributeError` raised by the branch's propagation propagates out
(`none`), aborting the loop; a `False` from the propagation or from the
recursive call moves on to the next value. -/
def tryValsP [DecidableEq σ] [DecidableEq α] (c : CSP σ α)
    (bt : PyAssignment σ α → Option (Option (PyAssignment σ α)))
    (a : PyAssignment σ α) (var : σ) (vals : List α) :
    Option (Option (PyAssignment σ α)) :=
  vals.foldl
    (fun acc v =>
      match acc with
      | some none =>
        match c.inferP (updateP a var (PyDom.raw v)) c.get_all_arcs with
        | none => none
        | some r => if r.2 then bt r.1 else some none
      | other => other)
    (some none)

/-- Variable `0` fixed to `[0]`, variable `1` undecided between `[0, 1]`,
not-equal in both directions: collapsing variable `1` to the value `0`
makes that branch's propagation fail cleanly, because the arc `(0, 1)` is
processed first and empties the list domain of `0` before any arc reaches
the raw collapsed value. -/
def cSwap : CSP (Fin 2) (Fin 2) :=
  ((((CSP.new (Fin 2) (Fin 2)).add_variable 0 [0]).add_variable 1 [0, 1]
    ).add_constraint_one_way 0 1 neq).add_constraint_one_way 1 0 neq


/-! Dictionary lemmas. -/

theorem lookupD_nil [DecidableEq σ] (k : σ) : lookupD ([] : Assignment σ α) k = [] := rfl

theorem lookupD_cons_self [DecidableEq σ] (pk : σ) (pv : List α) (rest : Assignment σ α) :
    lookupD ((pk, pv) :: rest) pk = pv := by
  simp [lookupD, dictGetD, dictGet?]

theorem lookupD_cons_ne [DecidableEq σ] (pk k : σ) (pv : List α) (rest : Assignment σ α)
    (h : pk ≠ k) : lookupD ((pk, pv) :: rest) k = lookupD rest k := by
  simp [lookupD, dictGetD, dictGet?, h]

theorem updateA_cons_self [DecidableEq σ] (pk : σ) (pv v : List α) (rest : Assignment σ α) :
    updateA ((pk, pv) :: rest) pk v = (pk, v) :: rest := by
  simp [updateA]

theorem updateA_cons_ne [DecidableEq σ] (pk k : σ) (pv v : List α) (rest : Assignment σ α)
    (h : pk ≠ k) : updateA ((pk, pv) :: rest) k v = (pk, pv) :: updateA rest k v := by
  simp [updateA, h]

theorem dictGet?_dictSet_self [DecidableEq σ] (d : List (σ × β)) (k : σ) (v : β) :
    dictGet? (dictSet d k v) k = some v := by
  induction d with
  | nil => simp [dictSet, dictGet?]
  | cons p rest ih =>
    by_cases h : p.1 = k <;> simp [dictSet, dictGet?, h, ih]

theorem dictGetD_dictSet_self [DecidableEq σ] (d : List (σ × β)) (k : σ) (v dflt : β) :
    dictGetD (dictSet d k v) k dflt = v := by
  simp [dictGetD, dictGet?_dictSet_self]

theorem dictGet?_dictSet_ne [DecidableEq σ] (d : List (σ × β)) (k k' : σ) (v : β)
    (h : k' ≠ k) : dictGet? (dictSet d k v) k' = dictGet? d k' := by
  have h2 : k ≠ k' := Ne.symm h
  induction d with
  | nil => simp [dictSet, dictGet?, h2]
  | cons p rest ih =>
    obtain ⟨pk, pv⟩ := p
    by_cases hp : pk = k
    · subst hp
      simp [dictSet, dictGet?, h2]
    · by_cases hp' : pk = k'
      · subst hp'
        simp [dictSet, dictGet?, hp, h2]
      · simp [dictSet, dictGet?, hp, hp', ih]

theorem lookupD_eq_nil_of_not_mem [DecidableEq σ] (a : Assignment σ α) (k : σ)
    (h : k ∉ a.map Prod.fst) : lookupD a k = [] := by
  induction a with
  | nil => rfl
  | cons p rest ih =>
    obtain ⟨pk, pv⟩ := p
    simp only [List.map_cons, List.mem_cons] at h
    push_neg at h
    rw [lookupD_cons_ne pk k pv rest (Ne.symm h.1)]
    exact ih h.2

theorem mem_keys_of_lookupD_ne_nil [DecidableEq σ] (a : Assignment σ α) (k : σ)
    (h : lookupD a k ≠ []) : k ∈ a.map Prod.fst := by
  by_contra hc
  exact h (lookupD_eq_nil_of_not_mem a k hc)

theorem updateA_of_not_mem [DecidableEq σ] (a : Assignment σ α) (k : σ) (v : List α)
    (h : k ∉ a.map Prod.fst) : updateA a k v = a := by
  induction a with
  | nil => rfl
  | cons p rest ih =>
    obtain ⟨pk, pv⟩ := p
    simp only [List.map_cons, List.mem_cons] at h
    push_neg at h
    rw [updateA_cons_ne pk k pv v rest (Ne.symm h.1), ih h.2]

theorem map_fst_updateA [DecidableEq σ] (a : Assignment σ α) (k : σ) (v : List α) :
    (updateA a k v).map Prod.fst = a.map Prod.fst := by
  induction a with
  | nil => rfl
  | cons p rest ih =>
    obtain ⟨pk, pv⟩ := p
    by_cases h : pk = k
    · subst h
      rw [updateA_cons_self]
      simp
    · rw [updateA_cons_ne pk k pv v rest h]
      simp only [List.map_cons, ih]

theorem lookupD_updateA_self [DecidableEq σ] (a : Assignment σ α) (k : σ) (v : List α)
    (h : k ∈ a.map Prod.fst) : lookupD (updateA a k v) k = v := by
  induction a with
  | nil => simp at h
  | cons p rest ih =>
    obtain ⟨pk, pv⟩ := p
    by_cases hp : pk = k
    · subst hp
      rw [updateA_cons_self, lookupD_cons_self]
    · simp only [List.map_cons, List.mem_cons] at h
      rcases h with h | h
      · exact absurd h.symm hp
      · rw [updateA_cons_ne pk k pv v rest hp, lookupD_cons_ne pk k pv _ hp]
        exact ih h

theorem lookupD_updateA_ne [DecidableEq σ] (a : Assignment σ α) (k k' : σ) (v : List α)
    (h : k' ≠ k) : lookupD (updateA a k v) k' = lookupD a k' := by
  induction a with
  | nil => rfl
  | cons p rest ih =>
    obtain ⟨pk, pv⟩ := p
    by_cases hp : pk = k
    · subst hp
      rw [updateA_cons_self, lookupD_cons_ne pk k' v rest (Ne.symm h),
        lookupD_cons_ne pk k' pv rest (Ne.symm h)]
    · by_cases hp' : pk = k'
      · subst hp'
        rw [updateA_cons_ne pk k pv v rest hp, lookupD_cons_self, lookupD_cons_self]
      · rw [updateA_cons_ne pk k pv v rest hp, lookupD_cons_ne pk k' pv _ hp',
          lookupD_cons_ne pk k' pv rest hp']
        exact ih

theorem updateA_lookupD_self [DecidableEq σ] (a : Assignment σ α) (k : σ) :
    updateA a k (lookupD a k) = a := by
  induction a with
  | nil => rfl
  | cons p rest ih =>
    obtain ⟨pk, pv⟩ := p
    by_cases hp : pk = k
    · subst hp
      rw [lookupD_cons_self, updateA_cons_self]
    · rw [lookupD_cons_ne pk k pv rest hp, updateA_cons_ne pk k pv _ rest hp, ih]

theorem totalSize_nil : totalSize ([] : Assignment σ α) = 0 := rfl

theorem totalSize_cons (p : σ × List α) (rest : Assignment σ α) :
    totalSize (p :: rest) = p.2.length + totalSize rest := by
  simp [totalSize]

theorem totalSize_updateA [DecidableEq σ] (a : Assignment σ α) (k : σ) (v : List α)
    (h : k ∈ a.map Prod.fst) :
    totalSize (updateA a k v) + (lookupD a k).length = totalSize a + v.length := by
  induction a with
  | nil => simp at h
  | cons p rest ih =>
    obtain ⟨pk, pv⟩ := p
    by_cases hp : pk = k
    · subst hp
      rw [updateA_cons_self, lookupD_cons_self, totalSize_cons, totalSize_cons]
      show v.length + totalSize rest + pv.length = pv.length + totalSize rest + v.length
      omega
    · simp only [List.map_cons, List.mem_cons] at h
      rcases h with h | h
      · exact absurd h.symm hp
      · rw [updateA_cons_ne pk k pv v rest hp, lookupD_cons_ne pk k pv rest hp,
          totalSize_cons, totalSize_cons]
        have hih := ih h
        show (pk, pv).2.length + totalSize (updateA rest k v) + (lookupD rest k).length
          = (pk, pv).2.length + totalSize rest + v.length
        omega

theorem lookupD_length_le_totalSize [DecidableEq σ] (a : Assignment σ α) (k : σ) :
    (lookupD a k).length ≤ totalSize a := by
  induction a with
  | nil => simp [lookupD_nil, totalSize_nil]
  | cons p rest ih =>
    obtain ⟨pk, pv⟩ := p
    by_cases hp : pk = k
    · subst hp
      rw [lookupD_cons_self, totalSize_cons]
      show pv.length ≤ pv.length + totalSize rest
      omega
    · rw [lookupD_cons_ne pk k pv rest hp, totalSize_cons]
      show (lookupD rest k).length ≤ pv.length + totalSize rest
      omega

theorem nbrsWeight_nil [DecidableEq σ] (c : CSP σ α) :
    nbrsWeight c ([] : Assignment σ α) = 0 := rfl

theorem nbrsWeight_cons [DecidableEq σ] (c : CSP σ α) (p : σ × List α)
    (rest : Assignment σ α) :
    nbrsWeight c (p :: rest) = (nbrsOf c p.1).length + nbrsWeight c rest := by
  simp [nbrsWeight]

theorem nbrsWeight_updateA [DecidableEq σ] (c : CSP σ α) (a : Assignment σ α)
    (k : σ) (v : List α) : nbrsWeight c (updateA a k v) = nbrsWeight c a := by
  induction a with
  | nil => rfl
  | cons p rest ih =>
    obtain ⟨pk, pv⟩ := p
    by_cases hp : pk = k
    · subst hp
      rw [updateA_cons_self, nbrsWeight_cons, nbrsWeight_cons]
    · rw [updateA_cons_ne pk k pv v rest hp, nbrsWeight_cons, nbrsWeight_cons, ih]

theorem nbrs_le_nbrsWeight [DecidableEq σ] (c : CSP σ α) (a : Assignment σ α) (k : σ)
    (h : k ∈ a.map Prod.fst) : (nbrsOf c k).length ≤ nbrsWeight c a := by
  induction a with
  | nil => simp at h
  | cons p rest ih =>
    simp only [List.map_cons, List.mem_cons] at h
    rw [nbrsWeight_cons]
    rcases h with h | h
    · subst h
      omega
    · have := ih h
      omega

theorem mem_pairsProd {l1 : List α} {l2 : List β} (p : α × β) :
    p ∈ pairsProd l1 l2 ↔ p.1 ∈ l1 ∧ p.2 ∈ l2 := by
  induction l1 with
  | nil => simp [pairsProd]
  | cons x xs ih =>
    simp only [pairsProd, List.mem_append, List.mem_map, List.mem_cons, ih]
    constructor
    · rintro (⟨y, hy, rfl⟩ | ⟨h1, h2⟩)
      · exact ⟨Or.inl rfl, hy⟩
      · exact ⟨Or.inr h1, h2⟩
    · rintro ⟨h1 | h1, h2⟩
      · subst h1
        exact Or.inl ⟨p.2, h2, rfl⟩
      · exact Or.inr ⟨h1, h2⟩

/-! Characterisation of `revise`: the per-value loop computes a filter. -/

theorem hasSupport_iff [DecidableEq α] (t : List (α × α)) (dj : List α) (x : α) :
    hasSupport t dj x = true ↔ ∃ w ∈ dj, (x, w) ∈ t := by
  simp [hasSupport]

theorem reviseStep_eq [DecidableEq α] (t : List (α × α)) (dj : List α)
    (acc : List α × Bool) (x : α) :
    reviseStep t dj acc x
      = if hasSupport t dj x = true then acc else (acc.1.erase x, true) := by
  have hcond : (t.filter (fun pr => decide (pr ∈ pairsProd [x] dj))).length = 0
      ↔ hasSupport t dj x = false := by
    rw [List.length_eq_zero, List.filter_eq_nil_iff]
    constructor
    · intro h
      rw [← Bool.not_eq_true, hasSupport_iff]
      rintro ⟨w, hw, hmem⟩
      have := h (x, w) hmem
      rw [decide_eq_true_eq, mem_pairsProd] at this
      exact this ⟨List.mem_singleton_self x, hw⟩
    · intro h pr hpr hdec
      rw [decide_eq_true_eq, mem_pairsProd, List.mem_singleton] at hdec
      rw [← Bool.not_eq_true, hasSupport_iff] at h
      exact h ⟨pr.2, hdec.2, by rw [← hdec.1]; exact hpr⟩
  by_cases hs : hasSupport t dj x = true
  · have hc : ¬(t.filter (fun pr => decide (pr ∈ pairsProd [x] dj))).length = 0 := by
      rw [hcond]
      simp [hs]
    rw [reviseStep, if_neg hc, if_pos hs]
  · have hsf : hasSupport t dj x = false := by
      rwa [Bool.not_eq_true] at hs
    rw [reviseStep, if_pos (hcond.mpr hsf), if_neg hs]

theorem revise_fold_snd [DecidableEq α] (t : List (α × α)) (dj : List α) :
    ∀ (l : List α) (cp : List α) (b : Bool),
      (l.foldl (reviseStep t dj) (cp, b)).2
        = (b || l.any (fun x => !(hasSupport t dj x))) := by
  intro l
  induction l with
  | nil => intro cp b; simp
  | cons x l ih =>
    intro cp b
    rw [List.foldl_cons, reviseStep_eq]
    by_cases hs : hasSupport t dj x = true
    · rw [if_pos hs, ih]
      simp [hs]
    · rw [if_neg hs, ih]
      rw [Bool.not_eq_true] at hs
      simp [hs]

theorem revise_fold_keep [DecidableEq α] (t : List (α × α)) (dj : List α) (x : α)
    (hx : hasSupport t dj x = true) :
    ∀ (l : List α) (cp : List α) (b : Bool),
      (l.foldl (reviseStep t dj) (x :: cp, b)).1
        = x :: (l.foldl (reviseStep t dj) (cp, b)).1 := by
  intro l
  induction l with
  | nil => intro cp b; rfl
  | cons y l ih =>
    intro cp b
    rw [List.foldl_cons, List.foldl_cons, reviseStep_eq, reviseStep_eq]
    by_cases hy : hasSupport t dj y = true
    · rw [if_pos hy, if_pos hy, ih]
    · have hxy : ¬(x == y) := by
        rw [beq_iff_eq]
        rintro rfl
        exact hy hx
      rw [if_neg hy, if_neg hy]
      show ((l.foldl (reviseStep t dj) ((x :: cp).erase y, true)).1)
        = x :: (l.foldl (reviseStep t dj) (cp.erase y, true)).1
      rw [List.erase_cons_tail hxy, ih]

theorem revise_fold_fst [DecidableEq α] (t : List (α × α)) (dj : List α) :
    ∀ (l : List α) (b : Bool),
      (l.foldl (reviseStep t dj) (l, b)).1 = l.filter (hasSupport t dj) := by
  intro l
  induction l with
  | nil => intro b; rfl
  | cons x l ih =>
    intro b
    rw [List.foldl_cons, reviseStep_eq]
    by_cases hs : hasSupport t dj x = true
    · rw [if_pos hs, revise_fold_keep t dj x hs, ih, List.filter_cons_of_pos hs]
    · rw [if_neg hs]
      show (l.foldl (reviseStep t dj) ((x :: l).erase x, true)).1
        = (x :: l).filter (hasSupport t dj)
      rw [List.erase_cons_head, ih, List.filter_cons_of_neg]
      rw [Bool.not_eq_true] at hs
      simp [hs]

theorem revise_eq [DecidableEq σ] [DecidableEq α] (c : CSP σ α)
    (a : Assignment σ α) (xi xj : σ) :
    c.revise a xi xj
      = (updateA a xi
          ((lookupD a xi).filter (hasSupport (tblOf c xi xj) (lookupD a xj))),
         (lookupD a xi).any
           (fun x => !(hasSupport (tblOf c xi xj) (lookupD a xj) x))) := by
  show (updateA a xi
      ((lookupD a xi).foldl (reviseStep (tblOf c xi xj) (lookupD a xj))
        (lookupD a xi, false)).1,
    ((lookupD a xi).foldl (reviseStep (tblOf c xi xj) (lookupD a xj))
        (lookupD a xi, false)).2) = _
  rw [revise_fold_fst, revise_fold_snd]
  simp

theorem revise_fst_eq [DecidableEq σ] [DecidableEq α] (c : CSP σ α)
    (a : Assignment σ α) (xi xj : σ) :
    (c.revise a xi xj).1
      = updateA a xi
          ((lookupD a xi).filter (hasSupport (tblOf c xi xj) (lookupD a xj))) := by
  rw [revise_eq]

theorem revise_snd_eq [DecidableEq σ] [DecidableEq α] (c : CSP σ α)
    (a : Assignment σ α) (xi xj : σ) :
    (c.revise a xi xj).2
      = (lookupD a xi).any
          (fun x => !(hasSupport (tblOf c xi xj) (lookupD a xj) x)) := by
  rw [revise_eq]

theorem filter_length_lt_of_bad {p : α → Bool} {l : List α} {x : α}
    (hx : x ∈ l) (hp : p x = false) : (l.filter p).length < l.length := by
  induction l with
  | nil => simp at hx
  | cons y l ih =>
    rcases List.mem_cons.mp hx with h | h
    · subst h
      rw [List.filter_cons_of_neg (by simp [hp])]
      have := List.length_filter_le p l
      simp only [List.length_cons]
      omega
    · by_cases hy : p y = true
      · rw [List.filter_cons_of_pos hy]
        have := ih h
        simp only [List.length_cons]
        omega
      · rw [List.filter_cons_of_neg (by simp [Bool.not_eq_true] at hy ⊢; exact hy)]
        have := ih h
        simp only [List.length_cons]
        omega

theorem revise_snd_true_shrinks [DecidableEq σ] [DecidableEq α] (c : CSP σ α)
    (a : Assignment σ α) (xi xj : σ) (h : (c.revise a xi xj).2 = true) :
    ((lookupD a xi).filter (hasSupport (tblOf c xi xj) (lookupD a xj))).length
      < (lookupD a xi).length := by
  rw [revise_snd_eq] at h
  rw [List.any_eq_true] at h
  obtain ⟨x, hx, hbad⟩ := h
  rw [Bool.not_eq_true'] at hbad
  exact filter_length_lt_of_bad hx hbad

theorem revise_snd_true_mem_keys [DecidableEq σ] [DecidableEq α] (c : CSP σ α)
    (a : Assignment σ α) (xi xj : σ) (h : (c.revise a xi xj).2 = true) :
    xi ∈ a.map Prod.fst := by
  rw [revise_snd_eq] at h
  rw [List.any_eq_true] at h
  obtain ⟨x, hx, _⟩ := h
  apply mem_keys_of_lookupD_ne_nil
  intro hnil
  rw [hnil] at hx
  simp at hx

theorem revise_snd_false_fst [DecidableEq σ] [DecidableEq α] (c : CSP σ α)
    (a : Assignment σ α) (xi xj : σ) (h : (c.revise a xi xj).2 = false) :
    (c.revise a xi xj).1 = a := by
  rw [revise_snd_eq] at h
  rw [List.any_eq_false] at h
  have hall : ∀ x ∈ lookupD a xi,
      hasSupport (tblOf c xi xj) (lookupD a xj) x = true := by
    intro x hx
    have := h x hx
    simpa using this
  rw [revise_fst_eq, List.filter_eq_self.mpr hall, updateA_lookupD_self]

theorem revise_lookup_self [DecidableEq σ] [DecidableEq α] (c : CSP σ α)
    (a : Assignment σ α) (xi xj : σ) :
    lookupD ((c.revise a xi xj).1) xi
      = (lookupD a xi).filter (hasSupport (tblOf c xi xj) (lookupD a xj)) := by
  rw [revise_fst_eq]
  by_cases h : xi ∈ a.map Prod.fst
  · exact lookupD_updateA_self a xi _ h
  · rw [updateA_of_not_mem a xi _ h, lookupD_eq_nil_of_not_mem a xi h]
    rfl

theorem revise_lookup_ne [DecidableEq σ] [DecidableEq α] (c : CSP σ α)
    (a : Assignment σ α) (xi xj v : σ) (h : v ≠ xi) :
    lookupD ((c.revise a xi xj).1) v = lookupD a v := by
  rw [revise_fst_eq]
  exact lookupD_updateA_ne a xi v _ h

theorem revise_map_fst [DecidableEq σ] [DecidableEq α] (c : CSP σ α)
    (a : Assignment σ α) (xi xj : σ) :
    ((c.revise a xi xj).1).map Prod.fst = a.map Prod.fst := by
  rw [revise_fst_eq]
  exact map_fst_updateA a xi _

theorem revise_totalSize_le [DecidableEq σ] [DecidableEq α] (c : CSP σ α)
    (a : Assignment σ α) (xi xj : σ) :
    totalSize ((c.revise a xi xj).1) ≤ totalSize a := by
  rw [revise_fst_eq]
  by_cases h : xi ∈ a.map Prod.fst
  · have := totalSize_updateA a xi
      ((lookupD a xi).filter (hasSupport (tblOf c xi xj) (lookupD a xj))) h
    have hle := List.length_filter_le
      (hasSupport (tblOf c xi xj) (lookupD a xj)) (lookupD a xi)
    omega
  · rw [updateA_of_not_mem a xi _ h]

theorem revise_totalSize_lt [DecidableEq σ] [DecidableEq α] (c : CSP σ α)
    (a : Assignment σ α) (xi xj : σ) (h : (c.revise a xi xj).2 = true) :
    totalSize ((c.revise a xi xj).1) < totalSize a := by
  have hmem := revise_snd_true_mem_keys c a xi xj h
  have hlt := revise_snd_true_shrinks c a xi xj h
  rw [revise_fst_eq]
  have := totalSize_updateA a xi
    ((lookupD a xi).filter (hasSupport (tblOf c xi xj) (lookupD a xj))) hmem
  omega

theorem revise_sublist [DecidableEq σ] [DecidableEq α] (c : CSP σ α)
    (a : Assignment σ α) (xi xj v : σ) :
    List.Sublist (lookupD ((c.revise a xi xj).1) v) (lookupD a v) := by
  by_cases h : v = xi
  · subst h
    rw [revise_lookup_self]
    exact List.filter_sublist (lookupD a v)
  · rw [revise_lookup_ne c a xi xj v h]

theorem revise_nbrsWeight [DecidableEq σ] [DecidableEq α] (c : CSP σ α)
    (a : Assignment σ α) (xi xj : σ) :
    nbrsWeight c ((c.revise a xi xj).1) = nbrsWeight c a := by
  rw [revise_fst_eq]
  exact nbrsWeight_updateA c a xi _

/-! Lemmas about one step of the AC-3 loop. -/

theorem inferenceN_zero [DecidableEq σ] [DecidableEq α] (c : CSP σ α)
    (a : Assignment σ α) (q : List (σ × σ)) : c.inferenceN 0 a q = none := rfl

theorem inferenceN_nil [DecidableEq σ] [DecidableEq α] (c : CSP σ α)
    (n : Nat) (a : Assignment σ α) : c.inferenceN (n + 1) a [] = some (a, true) := rfl

theorem inferenceN_cons [DecidableEq σ] [DecidableEq α] (c : CSP σ α)
    (n : Nat) (a : Assignment σ α) (xi xj : σ) (q : List (σ × σ)) :
    c.inferenceN (n + 1) a ((xi, xj) :: q)
      = if (c.revise a xi xj).2 = true then
          (if (lookupD (c.revise a xi xj).1 xi).length = 0
           then some ((c.revise a xi xj).1, false)
           else c.inferenceN n (c.revise a xi xj).1 (q ++ c.requeue xi xj))
        else c.inferenceN n (c.revise a xi xj).1 q := rfl

theorem mem_requeue [DecidableEq σ] (c : CSP σ α) (xi xj : σ) (p : σ × σ) :
    p ∈ c.requeue xi xj ↔ p.2 = xi ∧ p.1 ∈ nbrsOf c xi ∧ p.1 ≠ xi ∧ p.1 ≠ xj := by
  simp only [CSP.requeue, List.mem_filterMap, CSP.get_all_neighboring_arcs,
    List.mem_map, nbrsOf]
  constructor
  · rintro ⟨x, ⟨e, he, rfl⟩, hx⟩
    by_cases hcond : e.1 ≠ xi ∧ e.1 ≠ xj
    · rw [if_pos hcond] at hx
      obtain rfl := Option.some.inj hx
      exact ⟨rfl, ⟨e, he, rfl⟩, hcond.1, hcond.2⟩
    · rw [if_neg hcond] at hx
      exact absurd hx (Option.noConfusion)
  · rintro ⟨h2, ⟨e, he, h1⟩, hne1, hne2⟩
    refine ⟨(e.1, xi), ⟨e, he, rfl⟩, ?_⟩
    rw [if_pos ⟨h1 ▸ hne1, h1 ▸ hne2⟩]
    obtain ⟨pa, pb⟩ := p
    simp only at h1 h2
    rw [h1, h2]

theorem requeue_length_le [DecidableEq σ] (c : CSP σ α) (xi xj : σ) :
    (c.requeue xi xj).length ≤ (nbrsOf c xi).length := by
  have h1 := List.length_filterMap_le
    (fun p : σ × σ => if p.1 ≠ xi ∧ p.1 ≠ xj then some (p.1, xi) else none)
    (c.get_all_neighboring_arcs xi)
  have h2 : (c.get_all_neighboring_arcs xi).length = (nbrsOf c xi).length := by
    simp [CSP.get_all_neighboring_arcs, nbrsOf]
  rw [CSP.requeue]
  omega

/-! Global lemmas about the AC-3 loop, by induction on the step budget. -/

theorem inferenceN_isSome [DecidableEq σ] [DecidableEq α] (c : CSP σ α) (n : Nat) :
    ∀ (a : Assignment σ α) (q : List (σ × σ)), acMeasure c a q < n →
      (c.inferenceN n a q).isSome = true := by
  induction n with
  | zero => intro a q h; exact absurd h (Nat.not_lt_zero _)
  | succ n ih =>
    intro a q h
    cases q with
    | nil => rw [inferenceN_nil]; rfl
    | cons hd q' =>
      obtain ⟨xi, xj⟩ := hd
      rw [inferenceN_cons]
      by_cases hrev : (c.revise a xi xj).2 = true
      · rw [if_pos hrev]
        by_cases hlen : (lookupD (c.revise a xi xj).1 xi).length = 0
        · rw [if_pos hlen]; rfl
        · rw [if_neg hlen]
          apply ih
          have hT := revise_totalSize_lt c a xi xj hrev
          have hN := revise_nbrsWeight c a xi xj
          have hmem := revise_snd_true_mem_keys c a xi xj hrev
          have hrq := requeue_length_le c xi xj
          have hnb := nbrs_le_nbrsWeight c a xi hmem
          simp only [acMeasure, List.length_append, List.length_cons] at h ⊢
          rw [hN]
          have hmul : (totalSize (c.revise a xi xj).1 + 1) * (1 + nbrsWeight c a)
              ≤ totalSize a * (1 + nbrsWeight c a) :=
            Nat.mul_le_mul_right _ (by omega)
          rw [Nat.succ_mul] at hmul
          omega
      · rw [if_neg hrev]
        rw [revise_snd_false_fst c a xi xj (by rwa [Bool.not_eq_true] at hrev)]
        apply ih
        simp only [acMeasure, List.length_cons] at h
        simp only [acMeasure]
        omega

theorem inference_runs [DecidableEq σ] [DecidableEq α] (c : CSP σ α)
    (a : Assignment σ α) (q : List (σ × σ)) :
    c.inferenceN (acFuel c a q) a q = some (c.inference a q) := by
  have h := inferenceN_isSome c (acFuel c a q) a q (by simp only [acFuel]; omega)
  rw [CSP.inference]
  obtain ⟨r, hr⟩ := Option.isSome_iff_exists.mp h
  rw [hr]
  rfl

theorem inferenceN_map_fst [DecidableEq σ] [DecidableEq α] (c : CSP σ α) (n : Nat) :
    ∀ (a : Assignment σ α) (q : List (σ × σ)) (a2 : Assignment σ α) (b : Bool),
      c.inferenceN n a q = some (a2, b) → a2.map Prod.fst = a.map Prod.fst := by
  induction n with
  | zero => intro a q a2 b h; rw [inferenceN_zero] at h; exact absurd h (by simp)
  | succ n ih =>
    intro a q a2 b h
    cases q with
    | nil =>
      rw [inferenceN_nil] at h
      simp only [Option.some.injEq, Prod.mk.injEq] at h
      rw [← h.1]
    | cons hd q' =>
      obtain ⟨xi, xj⟩ := hd
      rw [inferenceN_cons] at h
      by_cases hrev : (c.revise a xi xj).2 = true
      · rw [if_pos hrev] at h
        by_cases hlen : (lookupD (c.revise a xi xj).1 xi).length = 0
        · rw [if_pos hlen] at h
          simp only [Option.some.injEq, Prod.mk.injEq] at h
          rw [← h.1, revise_map_fst]
        · rw [if_neg hlen] at h
          rw [ih _ _ _ _ h, revise_map_fst]
      · rw [if_neg hrev] at h
        rw [ih _ _ _ _ h, revise_map_fst]

theorem inferenceN_sublist [DecidableEq σ] [DecidableEq α] (c : CSP σ α) (n : Nat) :
    ∀ (a : Assignment σ α) (q : List (σ × σ)) (a2 : Assignment σ α) (b : Bool),
      c.inferenceN n a q = some (a2, b) →
      ∀ v, List.Sublist (lookupD a2 v) (lookupD a v) := by
  induction n with
  | zero => intro a q a2 b h; rw [inferenceN_zero] at h; exact absurd h (by simp)
  | succ n ih =>
    intro a q a2 b h v
    cases q with
    | nil =>
      rw [inferenceN_nil] at h
      simp only [Option.some.injEq, Prod.mk.injEq] at h
      rw [← h.1]
    | cons hd q' =>
      obtain ⟨xi, xj⟩ := hd
      rw [inferenceN_cons] at h
      by_cases hrev : (c.revise a xi xj).2 = true
      · rw [if_pos hrev] at h
        by_cases hlen : (lookupD (c.revise a xi xj).1 xi).length = 0
        · rw [if_pos hlen] at h
          simp only [Option.some.injEq, Prod.mk.injEq] at h
          rw [← h.1]
          exact revise_sublist c a xi xj v
        · rw [if_neg hlen] at h
          exact (ih _ _ _ _ h v).trans (revise_sublist c a xi xj v)
      · rw [if_neg hrev] at h
        exact (ih _ _ _ _ h v).trans (revise_sublist c a xi xj v)

theorem inferenceN_false_empty [DecidableEq σ] [DecidableEq α] (c : CSP σ α) (n : Nat) :
    ∀ (a : Assignment σ α) (q : List (σ × σ)) (a2 : Assignment σ α),
      c.inferenceN n a q = some (a2, false) →
      ∃ v, lookupD a2 v = [] ∧ lookupD a v ≠ [] := by
  induction n with
  | zero => intro a q a2 h; rw [inferenceN_zero] at h; exact absurd h (by simp)
  | succ n ih =>
    intro a q a2 h
    cases q with
    | nil =>
      rw [inferenceN_nil] at h
      simp only [Option.some.injEq, Prod.mk.injEq] at h
      exact absurd h.2 (by simp)
    | cons hd q' =>
      obtain ⟨xi, xj⟩ := hd
      rw [inferenceN_cons] at h
      by_cases hrev : (c.revise a xi xj).2 = true
      · rw [if_pos hrev] at h
        by_cases hlen : (lookupD (c.revise a xi xj).1 xi).length = 0
        · rw [if_pos hlen] at h
          simp only [Option.some.injEq, Prod.mk.injEq] at h
          refine ⟨xi, ?_, ?_⟩
          · rw [← h.1]
            exact List.length_eq_zero.mp hlen
          · have := revise_snd_true_shrinks c a xi xj hrev
            intro hnil
            rw [hnil] at this
            simp at this
        · rw [if_neg hlen] at h
          obtain ⟨v, hv1, hv2⟩ := ih _ _ _ h
          refine ⟨v, hv1, ?_⟩
          intro hnil
          have hsub := revise_sublist c a xi xj v
          rw [hnil] at hsub
          exact hv2 (List.sublist_nil.mp hsub)
      · rw [if_neg hrev] at h
        have hfst := revise_snd_false_fst c a xi xj (by rwa [Bool.not_eq_true] at hrev)
        rw [hfst] at h
        exact ih _ _ _ h

theorem hasSupport_nil_table [DecidableEq α] (dj : List α) (x : α) :
    hasSupport ([] : List (α × α)) dj x = false := by
  simp [hasSupport]

theorem inferenceN_empty_table_false [DecidableEq σ] [DecidableEq α] (c : CSP σ α)
    (n : Nat) :
    ∀ (a : Assignment σ α) (q : List (σ × σ)) (k v : σ) (a2 : Assignment σ α)
      (b : Bool),
      (k, v) ∈ q → tblOf c k v = [] → lookupD a k ≠ [] →
      c.inferenceN n a q = some (a2, b) → b = false := by
  induction n with
  | zero => intro a q k v a2 b _ _ _ h; rw [inferenceN_zero] at h; exact absurd h (by simp)
  | succ n ih =>
    intro a q k v a2 b hmem htbl hk h
    cases q with
    | nil => simp at hmem
    | cons hd q' =>
      obtain ⟨xi, xj⟩ := hd
      rw [inferenceN_cons] at h
      by_cases heq : xi = k ∧ xj = v
      · obtain ⟨rfl, rfl⟩ := heq
        have hall : ∀ x ∈ lookupD a xi,
            hasSupport (tblOf c xi xj) (lookupD a xj) x = false := by
          intro x hx
          rw [htbl]
          exact hasSupport_nil_table _ _
        have hrev : (c.revise a xi xj).2 = true := by
          rw [revise_snd_eq, List.any_eq_true]
          obtain ⟨x, hx⟩ := List.exists_mem_of_ne_nil _ hk
          exact ⟨x, hx, by rw [hall x hx]; rfl⟩
        have hlen : (lookupD (c.revise a xi xj).1 xi).length = 0 := by
          rw [revise_lookup_self, List.length_eq_zero, List.filter_eq_nil_iff]
          intro x hx
          rw [hall x hx]
          simp
        rw [if_pos hrev, if_pos hlen] at h
        simp only [Option.some.injEq, Prod.mk.injEq] at h
        exact h.2.symm
      · have hmem' : (k, v) ∈ q' := by
          rcases List.mem_cons.mp hmem with hh | hh
          · injection hh with h1 h2
            exact absurd ⟨h1.symm, h2.symm⟩ heq
          · exact hh
        by_cases hrev : (c.revise a xi xj).2 = true
        · rw [if_pos hrev] at h
          by_cases hlen : (lookupD (c.revise a xi xj).1 xi).length = 0
          · rw [if_pos hlen] at h
            simp only [Option.some.injEq, Prod.mk.injEq] at h
            exact h.2.symm
          · rw [if_neg hlen] at h
            have hne : lookupD ((c.revise a xi xj).1) k ≠ [] := by
              by_cases hkxi : k = xi
              · subst hkxi
                intro hnil
                rw [hnil] at hlen
                simp at hlen
              · rw [revise_lookup_ne c a xi xj k hkxi]
                exact hk
            exact ih _ _ k v _ _ (List.mem_append_left _ hmem') htbl hne h
        · rw [if_neg hrev] at h
          rw [revise_snd_false_fst c a xi xj (by rwa [Bool.not_eq_true] at hrev)] at h
          exact ih _ _ k v _ _ hmem' htbl hk h

theorem inferenceN_no_change [DecidableEq σ] [DecidableEq α] (c : CSP σ α) :
    ∀ (q : List (σ × σ)) (n : Nat) (a : Assignment σ α),
      (∀ i j, (i, j) ∈ q →
        ∀ x ∈ lookupD a i, hasSupport (tblOf c i j) (lookupD a j) x = true) →
      q.length < n → c.inferenceN n a q = some (a, true) := by
  intro q
  induction q with
  | nil =>
    intro n a _ hn
    cases n with
    | zero => exact absurd hn (Nat.not_lt_zero _)
    | succ n => exact inferenceN_nil c n a
  | cons hd q' ih =>
    intro n a hsup hn
    obtain ⟨xi, xj⟩ := hd
    cases n with
    | zero => exact absurd hn (Nat.not_lt_zero _)
    | succ n =>
      rw [inferenceN_cons]
      have hrev : ¬((c.revise a xi xj).2 = true) := by
        rw [revise_snd_eq, List.any_eq_true]
        rintro ⟨x, hx, hbad⟩
        rw [hsup xi xj (List.mem_cons_self _ _) x hx] at hbad
        simp at hbad
      rw [if_neg hrev]
      rw [revise_snd_false_fst c a xi xj (by rwa [Bool.not_eq_true] at hrev)]
      apply ih n a
      · intro i j hmem x hx
        exact hsup i j (List.mem_cons_of_mem _ hmem) x hx
      · simp only [List.length_cons] at hn
        omega

theorem inferenceN_invariant [DecidableEq σ] [DecidableEq α] (c : CSP σ α)
    (Hsym : ∀ i j x y, (x, y) ∈ tblOf c i j → (y, x) ∈ tblOf c j i)
    (Hnbr : ∀ i j, j ∈ nbrsOf c i → i ∈ nbrsOf c j)
    (Hirr : ∀ i, i ∉ nbrsOf c i) (n : Nat) :
    ∀ (a : Assignment σ α) (q : List (σ × σ)) (a2 : Assignment σ α),
      (∀ p ∈ q, p.2 ∈ nbrsOf c p.1) →
      (∀ i j, j ∈ nbrsOf c i → (i, j) ∈ q ∨
        ∀ x ∈ lookupD a i, hasSupport (tblOf c i j) (lookupD a j) x = true) →
      c.inferenceN n a q = some (a2, true) →
      ∀ i j, j ∈ nbrsOf c i → ∀ x ∈ lookupD a2 i,
        hasSupport (tblOf c i j) (lookupD a2 j) x = true := by
  induction n with
  | zero => intro a q a2 _ _ h; rw [inferenceN_zero] at h; exact absurd h (by simp)
  | succ n ih =>
    intro a q a2 hqc hinv h
    cases q with
    | nil =>
      rw [inferenceN_nil] at h
      simp only [Option.some.injEq, Prod.mk.injEq] at h
      obtain ⟨rfl, -⟩ : a = a2 ∧ True := ⟨h.1, trivial⟩
      intro i j hj x hx
      rcases hinv i j hj with hin | hsup
      · simp at hin
      · exact hsup x hx
    | cons hd q' =>
      obtain ⟨xi, xj⟩ := hd
      have hxj_nbr : xj ∈ nbrsOf c xi := hqc (xi, xj) (List.mem_cons_self _ _)
      have hxi_ne_xj : xi ≠ xj := by
        intro he
        rw [← he] at hxj_nbr
        exact Hirr xi hxj_nbr
      rw [inferenceN_cons] at h
      by_cases hrev : (c.revise a xi xj).2 = true
      · rw [if_pos hrev] at h
        by_cases hlen : (lookupD (c.revise a xi xj).1 xi).length = 0
        · rw [if_pos hlen] at h
          simp only [Option.some.injEq, Prod.mk.injEq] at h
          exact absurd h.2 (by simp)
        · rw [if_neg hlen] at h
          apply ih (c.revise a xi xj).1 (q' ++ c.requeue xi xj) a2 ?_ ?_ h
          · -- every queued arc is a constrained pair
            intro p hp
            rcases List.mem_append.mp hp with hp | hp
            · exact hqc p (List.mem_cons_of_mem _ hp)
            · obtain ⟨h2, h1, -, -⟩ := (mem_requeue c xi xj p).mp hp
              rw [h2]
              exact Hnbr xi p.1 h1
          · -- the arc-consistency worklist invariant is preserved
            intro i j hj
            by_cases hi : i = xi
            · subst hi
              by_cases hjx : j = xj
              · subst hjx
                refine Or.inr ?_
                intro x hx
                rw [revise_lookup_self] at hx
                rw [revise_lookup_ne c a i j j (Ne.symm hxi_ne_xj)]
                exact (List.mem_filter.mp hx).2
              · have hjne : j ≠ i := by
                  intro he
                  rw [he] at hj
                  exact Hirr i hj
                rcases hinv i j hj with hin | hsup
                · rcases List.mem_cons.mp hin with hh | hh
                  · injection hh with h1 h2
                    exact absurd h2 hjx
                  · exact Or.inl (List.mem_append_left _ hh)
                · refine Or.inr ?_
                  intro x hx
                  rw [revise_lookup_self] at hx
                  rw [revise_lookup_ne c a i xj j hjne]
                  exact hsup x (List.mem_filter.mp hx).1
            · by_cases hjx : j = xi
              · subst hjx
                by_cases hixj : i = xj
                · subst hixj
                  rcases hinv i j hj with hin | hsup
                  · rcases List.mem_cons.mp hin with hh | hh
                    · injection hh with h1 h2
                      exact absurd h1.symm hxi_ne_xj
                    · exact Or.inl (List.mem_append_left _ hh)
                  · refine Or.inr ?_
                    intro x hx
                    rw [revise_lookup_ne c a j i i (fun he => hi he)] at hx
                    obtain ⟨w, hw, hxw⟩ := (hasSupport_iff _ _ _).mp (hsup x hx)
                    rw [hasSupport_iff]
                    refine ⟨w, ?_, hxw⟩
                    rw [revise_lookup_self]
                    rw [List.mem_filter]
                    refine ⟨hw, ?_⟩
                    rw [hasSupport_iff]
                    exact ⟨x, hx, Hsym i j x w hxw⟩
                · refine Or.inl (List.mem_append_right _ ?_)
                  rw [mem_requeue]
                  exact ⟨rfl, Hnbr i j hj, hi, hixj⟩
              · rcases hinv i j hj with hin | hsup
                · rcases List.mem_cons.mp hin with hh | hh
                  · injection hh with h1 h2
                    exact absurd h1 hi
                  · exact Or.inl (List.mem_append_left _ hh)
                · refine Or.inr ?_
                  intro x hx
                  rw [revise_lookup_ne c a xi xj i hi] at hx
                  rw [revise_lookup_ne c a xi xj j hjx]
                  exact hsup x hx
      · rw [if_neg hrev] at h
        have hrevf : (c.revise a xi xj).2 = false := by rwa [Bool.not_eq_true] at hrev
        rw [revise_snd_false_fst c a xi xj hrevf] at h
        apply ih a q' a2 ?_ ?_ h
        · intro p hp
          exact hqc p (List.mem_cons_of_mem _ hp)
        · intro i j hj
          rcases hinv i j hj with hin | hsup
          · rcases List.mem_cons.mp hin with hh | hh
            · injection hh with h1 h2
              subst h1
              subst h2
              refine Or.inr ?_
              intro x hx
              have hall := revise_snd_eq c a i j ▸ hrevf
              rw [List.any_eq_false] at hall
              have := hall x hx
              simpa using this
            · exact Or.inl hh
          · exact Or.inr hsup

/-! The same facts for `inference`, which runs the loop with budget `acFuel`. -/

theorem inference_runs_pair [DecidableEq σ] [DecidableEq α] (c : CSP σ α)
    (a : Assignment σ α) (q : List (σ × σ)) :
    c.inferenceN (acFuel c a q) a q
      = some ((c.inference a q).1, (c.inference a q).2) := by
  rw [Prod.mk.eta]
  exact inference_runs c a q

theorem inference_map_fst [DecidableEq σ] [DecidableEq α] (c : CSP σ α)
    (a : Assignment σ α) (q : List (σ × σ)) :
    ((c.inference a q).1).map Prod.fst = a.map Prod.fst :=
  inferenceN_map_fst c (acFuel c a q) a q _ _ (inference_runs_pair c a q)

theorem inference_sublist [DecidableEq σ] [DecidableEq α] (c : CSP σ α)
    (a : Assignment σ α) (q : List (σ × σ)) (v : σ) :
    List.Sublist (lookupD ((c.inference a q).1) v) (lookupD a v) :=
  inferenceN_sublist c (acFuel c a q) a q _ _ (inference_runs_pair c a q) v

theorem inferenceN_totalSize_le [DecidableEq σ] [DecidableEq α] (c : CSP σ α)
    (n : Nat) :
    ∀ (a : Assignment σ α) (q : List (σ × σ)) (a2 : Assignment σ α) (b : Bool),
      c.inferenceN n a q = some (a2, b) → totalSize a2 ≤ totalSize a := by
  induction n with
  | zero => intro a q a2 b h; rw [inferenceN_zero] at h; exact absurd h (by simp)
  | succ n ih =>
    intro a q a2 b h
    cases q with
    | nil =>
      rw [inferenceN_nil] at h
      simp only [Option.some.injEq, Prod.mk.injEq] at h
      rw [← h.1]
    | cons hd q' =>
      obtain ⟨xi, xj⟩ := hd
      rw [inferenceN_cons] at h
      have hle := revise_totalSize_le c a xi xj
      by_cases hrev : (c.revise a xi xj).2 = true
      · rw [if_pos hrev] at h
        by_cases hlen : (lookupD (c.revise a xi xj).1 xi).length = 0
        · rw [if_pos hlen] at h
          simp only [Option.some.injEq, Prod.mk.injEq] at h
          rw [← h.1]
          exact hle
        · rw [if_neg hlen] at h
          exact (ih _ _ _ _ h).trans hle
      · rw [if_neg hrev] at h
        exact (ih _ _ _ _ h).trans hle

theorem inference_totalSize_le [DecidableEq σ] [DecidableEq α] (c : CSP σ α)
    (a : Assignment σ α) (q : List (σ × σ)) :
    totalSize ((c.inference a q).1) ≤ totalSize a :=
  inferenceN_totalSize_le c (acFuel c a q) a q _ _ (inference_runs_pair c a q)

theorem inference_false_empty [DecidableEq σ] [DecidableEq α] (c : CSP σ α)
    (a : Assignment σ α) (q : List (σ × σ)) (h : (c.inference a q).2 = false) :
    ∃ v, lookupD ((c.inference a q).1) v = [] ∧ lookupD a v ≠ [] := by
  apply inferenceN_false_empty c (acFuel c a q) a q
  rw [← h]
  exact inference_runs_pair c a q

theorem inference_empty_table_false [DecidableEq σ] [DecidableEq α] (c : CSP σ α)
    (a : Assignment σ α) (q : List (σ × σ)) (k v : σ)
    (hmem : (k, v) ∈ q) (htbl : tblOf c k v = []) (hk : lookupD a k ≠ []) :
    (c.inference a q).2 = false :=
  inferenceN_empty_table_false c (acFuel c a q) a q k v _ _ hmem htbl hk
    (inference_runs_pair c a q)

theorem inference_no_change [DecidableEq σ] [DecidableEq α] (c : CSP σ α)
    (a : Assignment σ α) (q : List (σ × σ))
    (hsup : ∀ i j, (i, j) ∈ q →
      ∀ x ∈ lookupD a i, hasSupport (tblOf c i j) (lookupD a j) x = true) :
    c.inference a q = (a, true) := by
  have h := inferenceN_no_change c q (acFuel c a q) a hsup
    (by simp only [acFuel, acMeasure]; omega)
  rw [CSP.inference, h]
  rfl

theorem inference_invariant [DecidableEq σ] [DecidableEq α] (c : CSP σ α)
    (Hsym : ∀ i j x y, (x, y) ∈ tblOf c i j → (y, x) ∈ tblOf c j i)
    (Hnbr : ∀ i j, j ∈ nbrsOf c i → i ∈ nbrsOf c j)
    (Hirr : ∀ i, i ∉ nbrsOf c i)
    (a : Assignment σ α) (q : List (σ × σ))
    (hqc : ∀ p ∈ q, p.2 ∈ nbrsOf c p.1)
    (hall : ∀ i j, j ∈ nbrsOf c i → (i, j) ∈ q)
    (h : (c.inference a q).2 = true) :
    ∀ i j, j ∈ nbrsOf c i → ∀ x ∈ lookupD ((c.inference a q).1) i,
      hasSupport (tblOf c i j) (lookupD ((c.inference a q).1) j) x = true := by
  apply inferenceN_invariant c Hsym Hnbr Hirr (acFuel c a q) a q _ hqc
    (fun i j hj => Or.inl (hall i j hj))
  rw [← h]
  exact inference_runs_pair c a q

/-! Lemmas about `backtrack` and `backtracking_search`. -/

theorem backtrack_zero [DecidableEq σ] [DecidableEq α] (c : CSP σ α)
    (a : Assignment σ α) : c.backtrack 0 a = none := rfl

theorem backtrack_succ [DecidableEq σ] [DecidableEq α] (c : CSP σ α) (n : Nat)
    (a : Assignment σ α) :
    c.backtrack (n + 1) a
      = if isComplete a = true then some (some a)
        else
          match select_unassigned_variable a with
          | none => some none
          | some var => tryVals c (c.backtrack n) a var (lookupD a var) := rfl

theorem foldl_first_success {π : Type} [DecidableEq σ] [DecidableEq α]
    (f : π → Option (Option (Assignment σ α))) :
    ∀ (vals : List π) (acc : Option (Option (Assignment σ α)))
      (r : Assignment σ α),
      vals.foldl
        (fun acc v =>
          match acc with
          | some none => f v
          | other => other) acc = some (some r) →
      acc = some (some r) ∨ ∃ v ∈ vals, f v = some (some r) := by
  intro vals
  induction vals with
  | nil => intro acc r h; exact Or.inl h
  | cons v vals ih =>
    intro acc r h
    rw [List.foldl_cons] at h
    rcases ih _ r h with hacc | ⟨v2, hv2, hf⟩
    · match acc, hacc with
      | some none, hacc => exact Or.inr ⟨v, List.mem_cons_self _ _, hacc⟩
      | some (some x), hacc => exact Or.inl hacc
    · exact Or.inr ⟨v2, List.mem_cons_of_mem _ hv2, hf⟩

theorem tryVals_success [DecidableEq σ] [DecidableEq α] (c : CSP σ α)
    (bt : Assignment σ α → Option (Option (Assignment σ α)))
    (a : Assignment σ α) (var : σ) (vals : List α) (r : Assignment σ α)
    (h : tryVals c bt a var vals = some (some r)) :
    ∃ v ∈ vals,
      (c.inference (updateA a var [v]) c.get_all_arcs).2 = true ∧
      bt ((c.inference (updateA a var [v]) c.get_all_arcs).1) = some (some r) := by
  rw [tryVals] at h
  have h2 := foldl_first_success
    (fun v =>
      let rr := c.inference (updateA a var [v]) c.get_all_arcs
      if rr.2 then bt rr.1 else some none)
    vals (some none) r h
  rcases h2 with hacc | ⟨v, hv, hf⟩
  · exact absurd hacc (by simp)
  · refine ⟨v, hv, ?_⟩
    by_cases hok : (c.inference (updateA a var [v]) c.get_all_arcs).2 = true
    · refine ⟨hok, ?_⟩
      have : (if (c.inference (updateA a var [v]) c.get_all_arcs).2 = true
          then bt ((c.inference (updateA a var [v]) c.get_all_arcs).1)
          else some none) = some (some r) := hf
      rwa [if_pos hok] at this
    · have : (if (c.inference (updateA a var [v]) c.get_all_arcs).2 = true
          then bt ((c.inference (updateA a var [v]) c.get_all_arcs).1)
          else some none) = some (some r) := hf
      rw [if_neg hok] at this
      exact absurd this (by simp)

theorem backtrack_some_some [DecidableEq σ] [DecidableEq α] (c : CSP σ α) (n : Nat) :
    ∀ (a : Assignment σ α) (r : Assignment σ α),
      c.backtrack n a = some (some r) →
      isComplete r = true ∧ r.map Prod.fst = a.map Prod.fst := by
  induction n with
  | zero => intro a r h; rw [backtrack_zero] at h; exact absurd h (by simp)
  | succ n ih =>
    intro a r h
    rw [backtrack_succ] at h
    by_cases hc : isComplete a = true
    · rw [if_pos hc] at h
      simp only [Option.some.injEq] at h
      rw [← h]
      exact ⟨hc, rfl⟩
    · rw [if_neg hc] at h
      cases hsel : select_unassigned_variable a with
      | none => rw [hsel] at h; exact absurd h (by simp)
      | some var =>
        rw [hsel] at h
        obtain ⟨v, -, -, hbt⟩ := tryVals_success c _ a var _ r h
        obtain ⟨hcomp, hkeys⟩ := ih _ r hbt
        refine ⟨hcomp, ?_⟩
        rw [hkeys, inference_map_fst, map_fst_updateA]

theorem lookupD_of_mem_nodup [DecidableEq σ] (a : Assignment σ α) (k : σ)
    (d : List α) (hmem : (k, d) ∈ a) (hnd : (a.map Prod.fst).Nodup) :
    lookupD a k = d := by
  induction a with
  | nil => simp at hmem
  | cons p rest ih =>
    obtain ⟨pk, pv⟩ := p
    simp only [List.map_cons, List.nodup_cons] at hnd
    rcases List.mem_cons.mp hmem with hh | hh
    · injection hh with h1 h2
      subst h1
      subst h2
      exact lookupD_cons_self _ _ rest
    · have hk : k ∈ rest.map Prod.fst :=
        List.mem_map.mpr ⟨(k, d), hh, rfl⟩
    -- pk cannot equal k, since k is a key of rest and pk is not
      have hne : pk ≠ k := fun he => hnd.1 (he ▸ hk)
      rw [lookupD_cons_ne pk k pv rest hne]
      exact ih hh hnd.2

theorem select_fold_spec :
    ∀ (l : Assignment σ α) (acc : Option σ × Option Nat) (var : σ),
      (l.foldl
        (fun acc p =>
          if decide (1 < p.2.length) && minOk p.2.length acc.2
          then (some p.1, some p.2.length) else acc) acc).1 = some var →
      acc.1 = some var ∨ ∃ d, (var, d) ∈ l ∧ 1 < d.length := by
  intro l
  induction l with
  | nil => intro acc var h; exact Or.inl h
  | cons p l ih =>
    intro acc var h
    rw [List.foldl_cons] at h
    rcases ih _ var h with hacc | ⟨d, hd, hlen⟩
    · by_cases hcond : (decide (1 < p.2.length) && minOk p.2.length acc.2) = true
      · rw [if_pos hcond] at hacc
        simp only [Option.some.injEq] at hacc
        refine Or.inr ⟨p.2, ?_, ?_⟩
        · rw [← hacc]
          exact List.mem_cons_self _ _
        · have := hcond
          rw [Bool.and_eq_true, decide_eq_true_eq] at this
          exact this.1
      · rw [if_neg hcond] at hacc
        exact Or.inl hacc
    · exact Or.inr ⟨d, List.mem_cons_of_mem _ hd, hlen⟩

theorem select_spec [DecidableEq σ] (a : Assignment σ α) (var : σ)
    (hnd : (a.map Prod.fst).Nodup)
    (h : select_unassigned_variable a = some var) :
    1 < (lookupD a var).length := by
  rw [select_unassigned_variable] at h
  rcases select_fold_spec a ((none : Option σ), (none : Option Nat)) var h with
    hacc | ⟨d, hd, hlen⟩
  · exact absurd hacc (by simp)
  · rw [lookupD_of_mem_nodup a var d hd hnd]
    exact hlen

theorem foldl_ne_none {π : Type} [DecidableEq σ] [DecidableEq α]
    (f : π → Option (Option (Assignment σ α))) :
    ∀ (vals : List π) (acc : Option (Option (Assignment σ α))),
      acc ≠ none → (∀ v ∈ vals, f v ≠ none) →
      vals.foldl
        (fun acc v =>
          match acc with
          | some none => f v
          | other => other) acc ≠ none := by
  intro vals
  induction vals with
  | nil => intro acc hacc _; exact hacc
  | cons v vals ih =>
    intro acc hacc hf
    rw [List.foldl_cons]
    apply ih
    · match acc, hacc with
      | some none, _ => exact hf v (List.mem_cons_self _ _)
      | some (some x), _ => simp
    · intro v2 hv2
      exact hf v2 (List.mem_cons_of_mem _ hv2)

theorem backtrack_fuel_sufficient [DecidableEq σ] [DecidableEq α] (c : CSP σ α)
    (n : Nat) :
    ∀ (a : Assignment σ α), (a.map Prod.fst).Nodup → totalSize a < n →
      c.backtrack n a ≠ none := by
  induction n with
  | zero => intro a _ h; exact absurd h (Nat.not_lt_zero _)
  | succ n ih =>
    intro a hnd hsize
    rw [backtrack_succ]
    by_cases hc : isComplete a = true
    · rw [if_pos hc]
      simp
    · rw [if_neg hc]
      cases hsel : select_unassigned_variable a with
      | none => simp
      | some var =>
        have hvar := select_spec a var hnd hsel
        have hvmem : var ∈ a.map Prod.fst := by
          apply mem_keys_of_lookupD_ne_nil
          intro hnil
          rw [hnil] at hvar
          simp at hvar
        show tryVals c (c.backtrack n) a var (lookupD a var) ≠ none
        rw [tryVals]
        apply foldl_ne_none
          (fun v =>
            let rr := c.inference (updateA a var [v]) c.get_all_arcs
            if rr.2 then c.backtrack n rr.1 else some none)
          (lookupD a var) (some none) (by simp)
        intro v _
        show (let rr := c.inference (updateA a var [v]) c.get_all_arcs
          if rr.2 then c.backtrack n rr.1 else some none) ≠ none
        by_cases hok : (c.inference (updateA a var [v]) c.get_all_arcs).2 = true
        · show (if (c.inference (updateA a var [v]) c.get_all_arcs).2 = true
              then c.backtrack n ((c.inference (updateA a var [v]) c.get_all_arcs).1)
              else some none) ≠ none
          rw [if_pos hok]
          apply ih
          · rw [inference_map_fst, map_fst_updateA]
            exact hnd
          · have h1 := inference_totalSize_le c (updateA a var [v]) c.get_all_arcs
            have h2 := totalSize_updateA a var [v] hvmem
            simp only [List.length_singleton] at h2
            omega
        · show (if (c.inference (updateA a var [v]) c.get_all_arcs).2 = true
              then c.backtrack n ((c.inference (updateA a var [v]) c.get_all_arcs).1)
              else some none) ≠ none
          rw [if_neg hok]
          simp

theorem pairsProd_nil_right (l : List α) : pairsProd l ([] : List β) = [] := by
  induction l with
  | nil => rfl
  | cons x xs ih => simp [pairsProd, ih]

theorem isComplete_iff (a : Assignment σ α) :
    isComplete a = true ↔ ∀ p ∈ a, p.2.length ≤ 1 := by
  rw [isComplete, Bool.not_eq_true', List.any_eq_false]
  constructor
  · intro h p hp
    have := h p hp
    rw [decide_eq_true_eq] at this
    omega
  · intro h p hp
    rw [decide_eq_true_eq]
    have := h p hp
    omega

/-! The claims. -/

/-- Claim C3: for every assignment and every ordered pair `(i, j)`, `revise`
removes from `assignment[i]` exactly those values `v` for which no value `w`
in `assignment[j]` makes `(v, w)` a member of the stored allowed-pair table
for `(i, j)` — the result is the filter of the stored list by the support
test against `tblOf c xi xj`, so the table for `(j, i)` is never consulted
and the surviving values keep their stored order — and it returns `True`
precisely when at least one value was removed. -/
theorem claim_C3 [DecidableEq σ] [DecidableEq α] (c : CSP σ α)
    (a : Assignment σ α) (xi xj : σ) :
    (c.revise a xi xj).1
        = updateA a xi
            ((lookupD a xi).filter (hasSupport (tblOf c xi xj) (lookupD a xj)))
      ∧ ((c.revise a xi xj).2 = true ↔
          (lookupD a xi).filter (hasSupport (tblOf c xi xj) (lookupD a xj))
            ≠ lookupD a xi)
      ∧ (∀ v, hasSupport (tblOf c xi xj) (lookupD a xj) v = true ↔
          ∃ w ∈ lookupD a xj, (v, w) ∈ tblOf c xi xj) := by
  refine ⟨revise_fst_eq c a xi xj, ?_, fun v => hasSupport_iff _ _ v⟩
  rw [revise_snd_eq]
  constructor
  · intro h hfe
    rw [List.any_eq_true] at h
    obtain ⟨x, hx, hbad⟩ := h
    rw [Bool.not_eq_true'] at hbad
    have hlt := filter_length_lt_of_bad hx hbad
    rw [hfe] at hlt
    omega
  · intro hne
    by_contra hfalse
    rw [Bool.not_eq_true, List.any_eq_false] at hfalse
    apply hne
    apply List.filter_eq_self.mpr
    intro x hx
    have := hfalse x hx
    simpa using this

/-- Claim C6: the AC-3 worklist loop terminates.  Arcs are requeued only
after a revision that strictly shrank a domain and domains never grow, so
for every model, assignment and initial queue the loop reaches its result
within the explicit step budget `acFuel` (queue length plus total domain
size times one plus the requeue bound), and `inference` is that result. -/
theorem claim_C6 [DecidableEq σ] [DecidableEq α] (c : CSP σ α)
    (a : Assignment σ α) (q : List (σ × σ)) :
    c.inferenceN (acFuel c a q) a q = some (c.inference a q) :=
  inference_runs c a q

/-- Claim C5: branch isolation in `backtrack`, stated over the branch model
that keeps the raw collapsed value and its crash path.  Every loop
iteration works on its own copy built from the parent assignment `a`.  A
branch that fails without crashing — its propagation returns `False`, or
the recursive call reports failure — leaves the remaining computation
literally equal to the computation that never tried that value: neither the
parent's assignment nor any sibling branch observes the mutations of the
failed child branch.  A branch whose propagation raises (`inferP … = none`,
the `AttributeError` from `cp.remove` on the raw collapsed value)
propagates the exception and aborts the loop instead of moving on. -/
theorem claim_C5 [DecidableEq σ] [DecidableEq α] (c : CSP σ α) (n : Nat)
    (a : PyAssignment σ α) (var : σ) (v : α) (rest : List α) :
    (((∃ na2, c.inferP (updateP a var (PyDom.raw v)) c.get_all_arcs
          = some (na2, false))
      ∨ (∃ na2, c.inferP (updateP a var (PyDom.raw v)) c.get_all_arcs
            = some (na2, true)
          ∧ c.backtrackP n na2 = some none)) →
      tryValsP c (c.backtrackP n) a var (v :: rest)
        = tryValsP c (c.backtrackP n) a var rest)
    ∧ (c.inferP (updateP a var (PyDom.raw v)) c.get_all_arcs = none →
      tryValsP c (c.backtrackP n) a var (v :: rest) = none) := by
  constructor
  · intro hfail
    rw [tryValsP, tryValsP, List.foldl_cons]
    congr 1
    show (match c.inferP (updateP a var (PyDom.raw v)) c.get_all_arcs with
      | none => none
      | some r => if r.2 = true then c.backtrackP n r.1 else some none)
      = some none
    rcases hfail with ⟨na2, hinf⟩ | ⟨na2, hinf, hbt⟩
    · rw [hinf]
      rfl
    · rw [hinf]
      exact hbt
  · intro hcrash
    rw [tryValsP, List.foldl_cons]
    show List.foldl
      (fun acc v =>
        match acc with
        | some none =>
          match c.inferP (updateP a var (PyDom.raw v)) c.get_all_arcs with
          | none => none
          | some r => if r.2 = true then c.backtrackP n r.1 else some none
        | other => other)
      (match c.inferP (updateP a var (PyDom.raw v)) c.get_all_arcs with
        | none => none
        | some r => if r.2 = true then c.backtrackP n r.1 else some none)
      rest = none
    rw [hcrash]
    induction rest with
    | nil => rfl
    | cons v2 rest ih =>
      rw [List.foldl_cons]
      exact ih

/-- Witness for claim C5, exercising both parts on concrete states.  In
`cSwap`, collapsing variable `1` to the value `0` makes that branch's
propagation fail cleanly (the list domain of `0` empties first), and the
loop continues as if the value had never been tried.  In `cBranch`,
collapsing variable `0` to the value `1` reaches `cp.remove` on the raw
collapsed value — `AttributeError` — and the loop aborts. -/
theorem claim_C5_witness :
    (cSwap.inferP (updateP (toPy cSwap.domains) 1 (PyDom.raw 0))
          cSwap.get_all_arcs
        = some ([((0 : Fin 2), PyDom.list ([] : List (Fin 2))),
            (1, PyDom.raw 0)], false)
      ∧ tryValsP cSwap (cSwap.backtrackP 1) (toPy cSwap.domains) 1 [0, 1]
          = tryValsP cSwap (cSwap.backtrackP 1) (toPy cSwap.domains) 1 [1])
    ∧ (cBranch.inferP (updateP (toPy cBranch.domains) 0 (PyDom.raw 1))
          cBranch.get_all_arcs = none
      ∧ tryValsP cBranch (cBranch.backtrackP 1) (toPy cBranch.domains) 0 [1, 0]
          = none) := by
  refine ⟨⟨by decide, ?_⟩, by decide, ?_⟩
  · exact (claim_C5 cSwap 1 (toPy cSwap.domains) 1 0 [1]).1
      (Or.inl ⟨[((0 : Fin 2), PyDom.list []), (1, PyDom.raw 0)], by decide⟩)
  · exact (claim_C5 cBranch 1 (toPy cBranch.domains) 0 1 [0]).2 (by decide)

/-- Claim C10: `inference` is not atomic on failure — whenever it returns
`False`, the assignment it hands back (the one it mutated in place) is a
pointwise shrink of the input, some domain in it has been emptied while that
domain was non-empty on entry (so the reductions are not rolled back), and
`backtracking_search` unconditionally passes the post-propagation assignment
to `backtrack` whatever the propagation outcome was. -/
theorem claim_C10 [DecidableEq σ] [DecidableEq α] (c : CSP σ α)
    (a : Assignment σ α) (q : List (σ × σ))
    (hfail : (c.inference a q).2 = false) :
    (∀ v, List.Sublist (lookupD ((c.inference a q).1) v) (lookupD a v))
      ∧ (∃ v, lookupD ((c.inference a q).1) v = [] ∧ lookupD a v ≠ [])
      ∧ ∀ c2 : CSP σ α,
          c2.backtracking_search
            = btApply c2 ((c2.inference c2.domains c2.get_all_arcs).1) :=
  ⟨fun v => inference_sublist c a q v,
    inference_false_empty c a q hfail, fun _ => rfl⟩

/-- Witness for claim C10 on the two-conflicting-cells model. -/
theorem claim_C10_witness :
    (cPair.inference cPair.domains cPair.get_all_arcs).2 = false
      ∧ ((∀ v, List.Sublist
            (lookupD ((cPair.inference cPair.domains cPair.get_all_arcs).1) v)
            (lookupD cPair.domains v))
        ∧ (∃ v, lookupD ((cPair.inference cPair.domains cPair.get_all_arcs).1) v = []
            ∧ lookupD cPair.domains v ≠ [])
        ∧ ∀ c2 : CSP (Fin 2) (Fin 1),
            c2.backtracking_search
              = btApply c2 ((c2.inference c2.domains c2.get_all_arcs).1)) :=
  ⟨by decide, claim_C10 cPair cPair.domains cPair.get_all_arcs (by decide)⟩

/-- Counterexample to claim C1 as stated: on the two-identical-fixed-values
model the pre-search propagation pass fails, yet `backtracking_search` does
not return the no-solution result. -/
theorem claim_C1_counterexample :
    (cPair.inference cPair.domains cPair.get_all_arcs).2 = false
      ∧ cPair.backtracking_search ≠ none := by
  decide

/-- Claim C1 (amended): `backtracking_search` discards the boolean result of
the pre-search propagation pass and always proceeds to `backtrack` on the
reduced assignment.  When the pass fails and leaves every domain with at
most one value — as with two identical fixed values constrained to differ —
no branching occurs: `backtrack`'s completeness test accepts the reduced
assignment immediately, and the search returns that assignment, which
contains a domain that was emptied by propagation, instead of the
no-solution result. -/
theorem claim_C1 [DecidableEq σ] [DecidableEq α] (c : CSP σ α)
    (hfail : (c.inference c.domains c.get_all_arcs).2 = false)
    (hsmall : ∀ p ∈ (c.inference c.domains c.get_all_arcs).1, p.2.length ≤ 1) :
    c.backtracking_search = some ((c.inference c.domains c.get_all_arcs).1)
      ∧ ∃ v, lookupD ((c.inference c.domains c.get_all_arcs).1) v = []
          ∧ lookupD c.domains v ≠ [] := by
  constructor
  · have hc : isComplete ((c.inference c.domains c.get_all_arcs).1) = true :=
      (isComplete_iff _).mpr hsmall
    show (c.backtrack
        (totalSize ((c.inference c.domains c.get_all_arcs).1) + 1)
        ((c.inference c.domains c.get_all_arcs).1)).getD none = _
    rw [backtrack_succ, if_pos hc]
    rfl
  · exact inference_false_empty c c.domains c.get_all_arcs hfail

/-- Witness for claim C1 on the two-conflicting-cells model. -/
theorem claim_C1_witness :
    ((cPair.inference cPair.domains cPair.get_all_arcs).2 = false
      ∧ ∀ p ∈ (cPair.inference cPair.domains cPair.get_all_arcs).1,
          p.2.length ≤ 1)
    ∧ (cPair.backtracking_search
          = some ((cPair.inference cPair.domains cPair.get_all_arcs).1)
      ∧ ∃ v, lookupD ((cPair.inference cPair.domains cPair.get_all_arcs).1) v = []
          ∧ lookupD cPair.domains v ≠ []) :=
  ⟨⟨by decide, by decide⟩, claim_C1 cPair (by decide) (by decide)⟩

/-- Counterexample to claim C2 as stated: `backtrack` returns its argument
as a complete solution although the single registered domain is empty (its
length is 0, not 1) — the completeness test `len(value) > 1` also accepts
empty domains. -/
theorem claim_C2_counterexample :
    cEmptyVar.backtrack 1 [((0 : Fin 1), ([] : List (Fin 1)))]
        = some (some [((0 : Fin 1), ([] : List (Fin 1)))])
      ∧ (lookupD [((0 : Fin 1), ([] : List (Fin 1)))] (0 : Fin 1)).length ≠ 1 := by
  decide

/-- Claim C2 (amended): `backtrack` returns the assignment passed to it as
the solution if and only if every variable's domain has AT MOST one value
(one or zero), and whenever `backtracking_search` succeeds its result maps
exactly the registered keys, each to a domain with at most one value. -/
theorem claim_C2 [DecidableEq σ] [DecidableEq α] (c : CSP σ α) :
    (∀ (n : Nat) (a : Assignment σ α),
      c.backtrack (n + 1) a = some (some a) ↔ ∀ p ∈ a, p.2.length ≤ 1)
    ∧ ∀ r, c.backtracking_search = some r →
        (∀ p ∈ r, p.2.length ≤ 1)
          ∧ r.map Prod.fst = c.domains.map Prod.fst := by
  constructor
  · intro n a
    constructor
    · intro h
      by_cases hc : isComplete a = true
      · exact (isComplete_iff a).mp hc
      · rw [backtrack_succ, if_neg hc] at h
        cases hsel : select_unassigned_variable a with
        | none =>
          rw [hsel] at h
          exact absurd h (by simp)
        | some var =>
          rw [hsel] at h
          obtain ⟨v, -, -, hbt⟩ := tryVals_success c _ a var _ a h
          exact absurd (backtrack_some_some c n _ a hbt).1 hc
    · intro hsmall
      rw [backtrack_succ, if_pos ((isComplete_iff a).mpr hsmall)]
  · intro r h
    have h2 : (c.backtrack
        (totalSize ((c.inference c.domains c.get_all_arcs).1) + 1)
        ((c.inference c.domains c.get_all_arcs).1)).getD none = some r := h
    cases hbt : c.backtrack
        (totalSize ((c.inference c.domains c.get_all_arcs).1) + 1)
        ((c.inference c.domains c.get_all_arcs).1) with
    | none =>
      rw [hbt] at h2
      exact absurd h2 (by simp)
    | some o =>
      rw [hbt] at h2
      cases o with
      | none => exact absurd h2 (by simp)
      | some r2 =>
        simp only [Option.getD_some, Option.some.injEq] at h2
        subst h2
        obtain ⟨hcomp, hkeys⟩ := backtrack_some_some c _ _ _ hbt
        refine ⟨(isComplete_iff r2).mp hcomp, ?_⟩
        rw [hkeys, inference_map_fst]

/-- Witness for claim C2 on a one-variable model whose search succeeds. -/
theorem claim_C2_witness :
    cSingle.backtracking_search = some [((0 : Fin 1), [(0 : Fin 1)])]
      ∧ ((∀ p ∈ [((0 : Fin 1), [(0 : Fin 1)])], p.2.length ≤ 1)
        ∧ [((0 : Fin 1), [(0 : Fin 1)])].map Prod.fst
            = cSingle.domains.map Prod.fst) :=
  ⟨by decide, (claim_C2 cSingle).2 [((0 : Fin 1), [(0 : Fin 1)])] (by decide)⟩

/-- Counterexample to claim C4 as stated ("for every initial arc queue"):
with the empty initial queue, `inference` returns `True` without touching
anything, yet in `cPair` the value `0` of variable `0` has no support in the
(empty) stored table towards its constrained neighbour `1`. -/
theorem claim_C4_counterexample :
    (cPair.inference cPair.domains []).2 = true
      ∧ (1 : Fin 2) ∈ nbrsOf cPair 0
      ∧ (0 : Fin 1) ∈ lookupD ((cPair.inference cPair.domains []).1) 0
      ∧ ∀ w ∈ lookupD ((cPair.inference cPair.domains []).1) 1,
          ((0 : Fin 1), w) ∉ tblOf cPair 0 1 := by
  decide

/-- Claim C4 (amended): when the constraint tables are populated
symmetrically in both directions (as the model-construction contract
requires), no variable is constrained against itself, and the initial queue
consists of the constrained arcs and covers all of them, then a `True`
result of `inference` guarantees arc-consistency: every value remaining in
`assignment[i]` has a supporting value in `assignment[j]` under the stored
table for every constrained pair `(i, j)` — no value with zero support
survives a successful propagation. -/
theorem claim_C4 [DecidableEq σ] [DecidableEq α] (c : CSP σ α)
    (a : Assignment σ α) (q : List (σ × σ))
    (Hsym : ∀ i j x y, (x, y) ∈ tblOf c i j → (y, x) ∈ tblOf c j i)
    (Hnbr : ∀ i j, j ∈ nbrsOf c i → i ∈ nbrsOf c j)
    (Hirr : ∀ i, i ∉ nbrsOf c i)
    (hqc : ∀ p ∈ q, p.2 ∈ nbrsOf c p.1)
    (hall : ∀ i j, j ∈ nbrsOf c i → (i, j) ∈ q)
    (h : (c.inference a q).2 = true) :
    ∀ i j, j ∈ nbrsOf c i → ∀ x ∈ lookupD ((c.inference a q).1) i,
      ∃ w ∈ lookupD ((c.inference a q).1) j, (x, w) ∈ tblOf c i j := by
  intro i j hj x hx
  have hs := inference_invariant c Hsym Hnbr Hirr a q hqc hall h i j hj x hx
  rwa [hasSupport_iff] at hs

/-- Witness for claim C4 on the symmetric two-variable not-equal model. -/
theorem claim_C4_witness :
    (cSym.inference cSym.domains cSym.get_all_arcs).2 = true
      ∧ ∀ i j, j ∈ nbrsOf cSym i →
          ∀ x ∈ lookupD ((cSym.inference cSym.domains cSym.get_all_arcs).1) i,
            ∃ w ∈ lookupD ((cSym.inference cSym.domains cSym.get_all_arcs).1) j,
              (x, w) ∈ tblOf cSym i j :=
  ⟨by decide, claim_C4 cSym cSym.domains cSym.get_all_arcs (by decide)
    (by decide) (by decide) (by decide) (by decide) (by decide)⟩

/-- Counterexample to claim C7 as stated: a variable registered with an
empty domain and no constraints gives an empty arc list, over which
propagation succeeds (returns `True`) instead of failing. -/
theorem claim_C7_counterexample :
    dictGetD cEmptyVar.domains (0 : Fin 1) [] = []
      ∧ (cEmptyVar.inference cEmptyVar.domains cEmptyVar.get_all_arcs).2
          = true := by
  decide

/-- Claim C7 (amended): a constraint table built by
`add_constraint_one_way` over a pair with an empty registered domain is
empty (provided any previously stored table for the pair was itself empty),
and the engine handles this without erroring: whenever the queue contains an
arc `(k, v)` whose stored table is empty while the domain of `k` is
non-empty — as every arc into an empty-domain variable from a live
neighbour is — `inference` returns `False`. -/
theorem claim_C7 [DecidableEq σ] [DecidableEq α] (c : CSP σ α) :
    (∀ (i j : σ) (f : α → α → Bool),
      (dictGetD c.domains i [] = [] ∨ dictGetD c.domains j [] = []) →
      (∀ t, dictGet? (dictGetD c.constraints i []) j = some t → t = []) →
      tblOf (c.add_constraint_one_way i j f) i j = [])
    ∧ ∀ (a : Assignment σ α) (q : List (σ × σ)) (k v : σ),
        (k, v) ∈ q → tblOf c k v = [] → lookupD a k ≠ [] →
        (c.inference a q).2 = false := by
  constructor
  · intro i j f hdom hex
    show dictGetD (dictGetD
      (dictSet c.constraints i
        (dictSet (dictGetD c.constraints i []) j
          (((dictGet? (dictGetD c.constraints i []) j).getD
              (pairsProd (dictGetD c.domains i [])
                (dictGetD c.domains j []))).filter
            (fun p => f p.1 p.2)))) i []) j [] = []
    rw [dictGetD_dictSet_self, dictGetD_dictSet_self]
    cases hget : dictGet? (dictGetD c.constraints i []) j with
    | none =>
      rw [Option.getD_none]
      rcases hdom with h | h
      · rw [h]
        rfl
      · rw [h, pairsProd_nil_right]
        rfl
    | some t0 =>
      rw [Option.getD_some, hex t0 hget]
      rfl
  · intro a q k v hmem htbl hk
    exact inference_empty_table_false c a q k v hmem htbl hk

/-- Witness for claim C7: building the constraint `1 -> 0` over the
empty-domain variable `0` yields an empty table, and propagation over the
resulting model's arcs fails. -/
theorem claim_C7_witness :
    (dictGetD cEmptyPre.domains (0 : Fin 2) [] = []
      ∧ tblOf (cEmptyPre.add_constraint_one_way 1 0 (fun _ _ => true)) 1 0 = [])
    ∧ (((1 : Fin 2), (0 : Fin 2)) ∈ cEmptyPair.get_all_arcs
      ∧ (cEmptyPair.inference cEmptyPair.domains cEmptyPair.get_all_arcs).2
          = false) := by
  have hnone : dictGet? (dictGetD cEmptyPre.constraints (1 : Fin 2) [])
      (0 : Fin 2) = none := by decide
  refine ⟨⟨by decide, ?_⟩, by decide, ?_⟩
  · exact (claim_C7 cEmptyPre).1 1 0 (fun _ _ => true) (Or.inr (by decide))
      (fun t ht => by rw [hnone] at ht; exact absurd ht (by simp))
  · exact (claim_C7 cEmptyPair).2 cEmptyPair.domains cEmptyPair.get_all_arcs
      1 0 (by decide) (by decide) (by decide)

/-- Counterexample to claim C8 as stated: re-registering variable `0` does
not fail — the call goes through, appends a duplicate to the variable list,
wipes the previously stored outgoing constraint table of `0`, and replaces
its domain, corrupting the model instead of leaving it untouched. -/
theorem claim_C8_counterexample :
    (cDup.add_variable 0 [2]).vars = [0, 1, 0]
      ∧ dictGetD cDup.constraints (0 : Fin 2) [] ≠ []
      ∧ dictGetD (cDup.add_variable 0 [2]).constraints (0 : Fin 2) [] = []
      ∧ dictGetD (cDup.add_variable 0 [2]).domains (0 : Fin 2) [] = [2] := by
  decide

/-- Claim C8 (amended): `add_variable` performs no duplicate-name check and
never fails.  Re-registering an existing name appends one more occurrence of
the name to the variable list, overwrites the stored domain with the new
one, and resets the variable's outgoing constraint dictionary to empty. -/
theorem claim_C8 [DecidableEq σ] [DecidableEq α] (c : CSP σ α) (name : σ)
    (domain : List α) :
    (c.add_variable name domain).vars.count name = c.vars.count name + 1
      ∧ dictGetD (c.add_variable name domain).domains name [] = domain
      ∧ dictGetD (c.add_variable name domain).constraints name [] = [] := by
  refine ⟨?_, dictGetD_dictSet_self _ _ _ _, dictGetD_dictSet_self _ _ _ _⟩
  show (c.vars ++ [name]).count name = c.vars.count name + 1
  rw [List.count_append]
  simp

/-- Counterexample to claim C9 as stated: in the model `cAsym`, whose two
directional tables are unrelated (the construction API permits this), a full
propagation pass over all arcs succeeds, yet running `inference` again over
all arcs changes the assignment — idempotence fails without the symmetry
assumption. -/
theorem claim_C9_counterexample :
    (cAsym.inference cAsym.domains cAsym.get_all_arcs).2 = true
      ∧ (cAsym.inference ((cAsym.inference cAsym.domains cAsym.get_all_arcs).1)
            cAsym.get_all_arcs).1
          ≠ (cAsym.inference cAsym.domains cAsym.get_all_arcs).1 := by
  decide

/-- Claim C9 (amended): propagation never increases any domain — every
domain after an `inference` call is a subsequence of its domain before, for
every assignment and queue; and propagation is idempotent for models whose
tables are populated symmetrically with no self-constraints, when the queue
consists of the constrained arcs and covers all of them: immediately after a
successful run, a second run over the same arcs returns the same assignment
and `True`, changing nothing. -/
theorem claim_C9 [DecidableEq σ] [DecidableEq α] (c : CSP σ α) :
    (∀ (a : Assignment σ α) (q : List (σ × σ)) (v : σ),
      List.Sublist (lookupD ((c.inference a q).1) v) (lookupD a v))
    ∧ ∀ (a : Assignment σ α) (q : List (σ × σ)),
        (∀ i j x y, (x, y) ∈ tblOf c i j → (y, x) ∈ tblOf c j i) →
        (∀ i j, j ∈ nbrsOf c i → i ∈ nbrsOf c j) →
        (∀ i, i ∉ nbrsOf c i) →
        (∀ p ∈ q, p.2 ∈ nbrsOf c p.1) →
        (∀ i j, j ∈ nbrsOf c i → (i, j) ∈ q) →
        (c.inference a q).2 = true →
        c.inference ((c.inference a q).1) q
          = ((c.inference a q).1, true) := by
  constructor
  · exact fun a q v => inference_sublist c a q v
  · intro a q Hsym Hnbr Hirr hqc hall h
    apply inference_no_change
    intro i j hij x hx
    exact inference_invariant c Hsym Hnbr Hirr a q hqc hall h i j
      (hqc (i, j) hij) x hx

/-- Witness for claim C9 on the symmetric two-variable not-equal model. -/
theorem claim_C9_witness :
    (cSym.inference cSym.domains cSym.get_all_arcs).2 = true
      ∧ cSym.inference ((cSym.inference cSym.domains cSym.get_all_arcs).1)
            cSym.get_all_arcs
          = ((cSym.inference cSym.domains cSym.get_all_arcs).1, true) :=
  ⟨by decide, (claim_C9 cSym).2 cSym.domains cSym.get_all_arcs (by decide)
    (by decide) (by decide) (by decide) (by decide) (by decide)⟩
